import Mathlib

/-!
Verification development for the rsdiff content-differencing engine.

The definitions below are a shallow embedding of the Rust sources
(`src/hash.rs`, `src/window.rs`, `src/delta.rs`, `src/lib.rs`):
byte buffers are `List Nat`, `u32` / `u64` arithmetic is `Nat` with
explicit `% 2^32` / `% 2^64`, `HashMap` is an insertion list with
last-write-wins lookup, and the scan loop is fuel recursion (the fuel
`|B| + 1` is provably sufficient: every loop iteration makes at least
one byte of progress).
-/

/-- 2^32, the modulus of all `u32` arithmetic in the rolling hasher. -/
def U32 : Nat := 4294967296

/-- 2^64, the modulus of all `u64` arithmetic in Blake2b. -/
def M64 : Nat := 18446744073709551616

/-- Rolling checksum state, from `RollingHasher` in `src/hash.rs`:
fields `a b : u32` and `count : usize`. -/
structure RollingHasher where
  a : Nat
  b : Nat
  count : Nat
deriving Repr, DecidableEq

/-- `RollingHasher::new`: everything is zero at first creation. -/
def RollingHasher.new : RollingHasher := ⟨0, 0, 0⟩

/-- `RollingHasher::digest`: `(b << 16) | a` in `u32` (the shift wraps mod 2^32,
the bitwise or of two values below 2^32 stays below 2^32). -/
def RollingHasher.digest (st : RollingHasher) : Nat :=
  ((st.b <<< 16) % U32) ||| st.a

/-- `RollingHasher::insert`: roll a byte in, with the `0xDEADC0DE` bias,
all arithmetic wrapping mod 2^32. -/
def RollingHasher.insert (st : RollingHasher) (byte : Nat) : RollingHasher :=
  let bb := (byte + 0xDEADC0DE) % U32
  let a2 := (st.a + bb) % U32
  let b2 := (st.b + a2) % U32
  ⟨a2, b2, st.count + 1⟩

/-- `RollingHasher::remove`: roll the oldest byte out.  Rust `wrapping_sub x y`
is `(x + (2^32 - y)) % 2^32` for `y < 2^32`; `count as u32` is `count % 2^32`.
(The `count -= 1` would underflow-panic in Rust at `count = 0`; callers always
remove previously inserted bytes, so `Nat` truncated subtraction agrees.) -/
def RollingHasher.remove (st : RollingHasher) (byte : Nat) : RollingHasher :=
  let bb := (byte + 0xDEADC0DE) % U32
  let c := st.count % U32
  let a2 := (st.a + (U32 - bb)) % U32
  let b2 := (st.b + (U32 - c * bb % U32)) % U32
  ⟨a2, b2, st.count - 1⟩

/-- `RollingHasher::update`: fold `insert` over the bytes. -/
def RollingHasher.update (st : RollingHasher) (bytes : List Nat) : RollingHasher :=
  bytes.foldl RollingHasher.insert st

/-- `weak_hash` from `src/hash.rs`: hash from a fresh hasher. -/
def weak_hash (bytes : List Nat) : Nat :=
  (RollingHasher.new.update bytes).digest

/-! ## Blake2b-512 (RFC 7693), as used by the `blake2` crate's `Blake2b`.
The crypto hash of the code is the first 32 bytes of the 64-byte digest. -/

def add64 (x y : Nat) : Nat := (x + y) % M64

def xor64 (x y : Nat) : Nat := x ^^^ y

def rotr64 (n x : Nat) : Nat := ((x >>> n) ||| (x <<< (64 - n))) % M64

def blakeIV : List Nat :=
  [0x6a09e667f3bcc908, 0xbb67ae8584caa73b, 0x3c6ef372fe94f82b, 0xa54ff53a5f1d36f1,
   0x510e527fade682d1, 0x9b05688c2b3e6c1f, 0x1f83d9abfb41bd6b, 0x5be0cd19137e2179]

def blakeSigma : List (List Nat) :=
  [[0, 1, 2, 3, 4, 5, 6, 7, 8, 9, 10, 11, 12, 13, 14, 15],
   [14, 10, 4, 8, 9, 15, 13, 6, 1, 12, 0, 2, 11, 7, 5, 3],
   [11, 8, 12, 0, 5, 2, 15, 13, 10, 14, 3, 6, 7, 1, 9, 4],
   [7, 9, 3, 1, 13, 12, 11, 14, 2, 6, 5, 10, 4, 0, 15, 8],
   [9, 0, 5, 7, 2, 4, 10, 15, 14, 1, 11, 12, 6, 8, 3, 13],
   [2, 12, 6, 10, 0, 11, 8, 3, 4, 13, 7, 5, 15, 14, 1, 9],
   [12, 5, 1, 15, 14, 13, 4, 10, 0, 7, 6, 3, 9, 2, 8, 11],
   [13, 11, 7, 14, 12, 1, 3, 9, 5, 0, 15, 4, 8, 6, 2, 10],
   [6, 15, 14, 9, 11, 3, 0, 8, 12, 2, 13, 7, 1, 4, 10, 5],
   [10, 2, 8, 4, 7, 6, 1, 5, 15, 11, 9, 14, 3, 12, 13, 0]]

/-- Blake2b G mixing function on a 16-word working vector. -/
def gMix (v : List Nat) (a b c d x y : Nat) : List Nat :=
  let va := add64 (add64 (v.getD a 0) (v.getD b 0)) x
  let vd := rotr64 32 (xor64 (v.getD d 0) va)
  let vc := add64 (v.getD c 0) vd
  let vb := rotr64 24 (xor64 (v.getD b 0) vc)
  let va2 := add64 (add64 va vb) y
  let vd2 := rotr64 16 (xor64 vd va2)
  let vc2 := add64 vc vd2
  let vb2 := rotr64 63 (xor64 vb vc2)
  (((v.set a va2).set b vb2).set c vc2).set d vd2

/-- One Blake2b round with message words `m` and round index `r`. -/
def blakeRound (m : List Nat) (v : List Nat) (r : Nat) : List Nat :=
  let s := blakeSigma.getD (r % 10) []
  let g := fun (v : List Nat) (a b c d i j : Nat) =>
    gMix v a b c d (m.getD (s.getD i 0) 0) (m.getD (s.getD j 0) 0)
  let v := g v 0 4 8 12 0 1
  let v := g v 1 5 9 13 2 3
  let v := g v 2 6 10 14 4 5
  let v := g v 3 7 11 15 6 7
  let v := g v 0 5 10 15 8 9
  let v := g v 1 6 11 12 10 11
  let v := g v 2 7 8 13 12 13
  let v := g v 3 4 9 14 14 15
  v

/-- A 128-byte block (zero padded) as 16 little-endian 64-bit words. -/
def wordsOfBlock (block : List Nat) : List Nat :=
  (List.range 16).map fun i =>
    (List.range 8).foldl (fun acc j => acc + (((block.getD (8 * i + j) 0) % 256) <<< (8 * j))) 0

/-- Blake2b compression function F. -/
def blake2bCompress (h : List Nat) (block : List Nat) (t : Nat) (last : Bool) : List Nat :=
  let m := wordsOfBlock block
  let v := h ++ blakeIV
  let v := v.set 12 (xor64 (v.getD 12 0) (t % M64))
  let v := v.set 13 (xor64 (v.getD 13 0) ((t / M64) % M64))
  let v := if last then v.set 14 (xor64 (v.getD 14 0) (M64 - 1)) else v
  let v := (List.range 12).foldl (blakeRound m) v
  (List.range 8).map fun i => xor64 (xor64 (h.getD i 0) (v.getD i 0)) (v.getD (i + 8) 0)

/-- Split a message into 128-byte blocks; the empty message yields one
(empty) block, matching RFC 7693.  Fuel `msg.length` suffices. -/
def blakeChunksAux : Nat → List Nat → List (List Nat)
  | 0, msg => [msg]
  | fuel + 1, msg =>
    if msg.length ≤ 128 then [msg]
    else msg.take 128 :: blakeChunksAux fuel (msg.drop 128)

def blakeChunks (msg : List Nat) : List (List Nat) := blakeChunksAux msg.length msg

/-- Fold the compression function over the blocks: intermediate blocks use the
running byte offset as counter, the final block uses the total length. -/
def blakeFold : List Nat → Nat → List (List Nat) → Nat → List Nat
  | h, _, [], _ => h
  | h, _, [b], total => blake2bCompress h b total true
  | h, done, b :: b2 :: bs, total =>
    blakeFold (blake2bCompress h b (done + 128) false) (done + 128) (b2 :: bs) total

/-- Blake2b-512 of a byte sequence (unkeyed, 64-byte digest), as bytes. -/
def blake2b512 (msg : List Nat) : List Nat :=
  let h0 := blakeIV.set 0 (xor64 (blakeIV.getD 0 0) 0x01010040)
  let hh := blakeFold h0 0 (blakeChunks msg) msg.length
  (hh.map fun w => (List.range 8).map fun j => (w >>> (8 * j)) % 256).flatten

/-- `CryptoHash::new(&result[..32])`: first 32 bytes of the Blake2b-512 digest. -/
def blake2bTrunc (msg : List Nat) : List Nat := (blake2b512 msg).take 32

/-! ## Signature and indexed signature (`src/hash.rs`). -/

/-- One entry of the block list: rolling checksum plus truncated Blake2b. -/
structure BlockHash where
  weak_hash : Nat
  crypto_hash : List Nat
deriving Repr, DecidableEq

/-- `buf.chunks(block_size)`: split into contiguous chunks of `block_size`
bytes, last one possibly shorter.  Structural fuel recursion so that the
kernel can evaluate it; fuel `l.length` suffices for `block_size ≥ 1`
(Rust `chunks` panics on chunk size 0; the model returns `[]` there). -/
def chunksOfAux : Nat → Nat → List Nat → List (List Nat)
  | 0, _, _ => []
  | _, _, [] => []
  | fuel + 1, bs, l => l.take bs :: chunksOfAux fuel bs (l.drop bs)

def chunksOf (bs : Nat) (l : List Nat) : List (List Nat) :=
  if bs = 0 then [] else chunksOfAux l.length bs l

/-- `Signature::calculate`: per chunk, the rolling checksum from scratch and
the truncated Blake2b digest, in buffer order. -/
def Signature.blocks (bs : Nat) (a : List Nat) : List BlockHash :=
  (chunksOf bs a).map fun c => ⟨weak_hash c, blake2bTrunc c⟩

/-- `IndexedSignature` from `src/hash.rs`: `blocks` lists the insertions
`weak_hash ↦ (ordinal, block)` performed on the `HashMap`, in order. -/
structure IndexedSignature where
  original_buffer_len : Nat
  block_size : Nat
  blocks : List (Nat × (Nat × BlockHash))
deriving Repr, DecidableEq

/-- `Signature::to_indexed`: insert every block keyed by its weak hash
(`HashMap::insert` overwrites, so a later block with the same weak hash
shadows an earlier one — see `sigLookup`). -/
def Signature.to_indexed (bs : Nat) (a : List Nat) : IndexedSignature :=
  { original_buffer_len := a.length
    block_size := bs
    blocks := (Signature.blocks bs a).enum.map fun p => (p.2.weak_hash, (p.1, p.2)) }

/-- `HashMap::get` on the indexed signature: the entry of the *last*
insertion with the given key (last-write-wins), if any. -/
def sigLookup (sig : IndexedSignature) (key : Nat) : Option (Nat × BlockHash) :=
  (sig.blocks.reverse.find? fun e => e.1 == key).map Prod.snd

/-- `calculate_block_size` from `src/hash.rs`:
`if len <= 32^2 { 32 } else { (len as f64).sqrt() as usize & !127 }`.
`sqrtFloor` models the f64 square root followed by the truncating cast:
for every `usize` value whose square root fits the cast (in particular all
values below 2^52, far beyond any length in this development) the f64
square root is correctly rounded and truncates to the integer floor
square root. `!127` on 64-bit `usize` is `2^64 - 128`. -/
def sqrtFloorAux : Nat → Nat → Nat → Nat
  | 0, _, guess => guess
  | fuel + 1, n, guess =>
    let next := (guess + n / guess) / 2
    if next < guess then sqrtFloorAux fuel n next else guess

def sqrtFloor (n : Nat) : Nat :=
  if n ≤ 1 then n else sqrtFloorAux n n (n / 2)

def calculate_block_size (len : Nat) : Nat :=
  if len ≤ 32 ^ 2 then 32
  else sqrtFloor len &&& 18446744073709551488

/-! ## Sliding window (`src/window.rs`).
The `io::Cursor` over the in-memory buffer is the pair
(already-consumed prefix is gone, `rest` is what is still unread);
a `read` into a `block_size` buffer plus `truncate` is `take`/`drop`. -/

structure Window where
  front : List Nat
  back : List Nat
  block_size : Nat
  offset : Nat
  bytes_read : Nat
  rest : List Nat
deriving Repr, DecidableEq

/-- `Window::new`: read up to `block_size` bytes into `front`, then up to
`block_size` into `back`. -/
def Window.new (buffer : List Nat) (block_size : Nat) : Window :=
  { front := buffer.take block_size
    back := (buffer.drop block_size).take block_size
    block_size := block_size
    offset := 0
    bytes_read := 0
    rest := (buffer.drop block_size).drop block_size }

/-- `Window::frame`: `(&front[min(offset, front.len())..], &back[..min(offset, back.len())])`;
`List.drop` and `List.take` clamp exactly like the `min`s. -/
def Window.frame (w : Window) : List Nat × List Nat :=
  (w.front.drop w.offset, w.back.take w.offset)

/-- `Window::frame_size`: `front.len() + back.len() - offset` (in reachable
states `offset ≤ front.len()`, so the `usize` subtraction never underflows
and agrees with truncated `Nat` subtraction). -/
def Window.frame_size (w : Window) : Nat :=
  w.front.length + w.back.length - w.offset

def Window.has_frame (w : Window) : Prop := 0 < w.frame_size

instance (w : Window) : Decidable w.has_frame := by
  unfold Window.has_frame; infer_instance

def Window.on_boundry (w : Window) : Prop :=
  w.offset = 0 ∨ w.offset = w.front.length

instance (w : Window) : Decidable w.on_boundry := by
  unfold Window.on_boundry; infer_instance

/-- `Window::head`: `back[offset + block_size - front.len()]` if in range
(in reachable states `front.len() ≤ block_size`, so the index never
underflows). -/
def Window.head (w : Window) : Option Nat :=
  w.back[w.offset + w.block_size - w.front.length]?

/-- `Window::tail`: `front.get(offset)`. -/
def Window.tail (w : Window) : Option Nat :=
  w.front[w.offset]?

/-- `Window::read_next`: rotate `back` into `front`, read a fresh `back`. -/
def Window.read_next (w : Window) : Window :=
  { w with
    front := w.back
    back := w.rest.take w.block_size
    rest := w.rest.drop w.block_size
    offset := 0 }

/-- Common tail of `Window::move_forword`: grab `(tail, head)` and advance. -/
def Window.stepw (w : Window) : Window × (Option Nat × Option Nat) :=
  ({ w with offset := w.offset + 1, bytes_read := w.bytes_read + 1 },
   (w.tail, w.head))

/-- `Window::move_forword` (sic): one-byte slide, rotating first when the
front is spent; returns the window plus `(tail, head)`. -/
def Window.move_forword (w : Window) : Window × (Option Nat × Option Nat) :=
  if w.front.isEmpty then (w, (none, none))
  else if w.front.length ≤ w.offset then
    if w.back.isEmpty then (w, (none, none))
    else w.read_next.stepw
  else w.stepw

/-! ## Delta (`src/delta.rs`). -/

/-- Edit-script operation, fields as in the Rust enum. -/
inductive Operation where
  | Insert (buffer : List Nat) (offset : Nat)
  | Remove (offset : Nat) (len : Nat)
deriving Repr, DecidableEq

def Operation.is_insert : Operation → Prop
  | .Insert _ _ => True
  | .Remove _ _ => False

instance (op : Operation) : Decidable op.is_insert := by
  cases op <;> simp [Operation.is_insert] <;> infer_instance

def Operation.is_remove : Operation → Prop
  | .Insert _ _ => False
  | .Remove _ _ => True

instance (op : Operation) : Decidable op.is_remove := by
  cases op <;> simp [Operation.is_remove] <;> infer_instance

def Operation.offset : Operation → Nat
  | .Insert _ o => o
  | .Remove o _ => o

def Operation.len : Operation → Nat
  | .Insert b _ => b.length
  | .Remove _ l => l

/-- `Delta::find_match`: probe the index with the weak digest, confirm with
the truncated Blake2b over the frame (front part then back part), and
enforce `idx > last_matching_block_idx`. -/
def Delta.find_match (sig : IndexedSignature) (weakh : Nat) (w : Window)
    (last_matching_block_idx : Int) : Option Nat :=
  match sigLookup sig weakh with
  | some (idx, block) =>
    let fr := w.frame
    let crypto := blake2bTrunc (fr.1 ++ fr.2)
    if block.crypto_hash = crypto ∧ last_matching_block_idx < (idx : Int) then some idx
    else none
  | none => none

/-- The mutable locals of `Delta::diff`'s scan loop. -/
structure DiffState where
  w : Window
  hasher : RollingHasher
  ins_buffer : List Nat
  last : Int
  ops : List Operation
deriving Repr, DecidableEq

/-- The `for _ in 0..block_size` jump after a match: break on an empty frame
at a boundary, otherwise slide one byte, rolling the tail out of and the
head into the hasher. -/
def jumpLoop : Nat → Window → RollingHasher → Window × RollingHasher
  | 0, w, h => (w, h)
  | n + 1, w, h =>
    if w.on_boundry ∧ w.frame_size = 0 then (w, h)
    else
      let m := w.move_forword
      let h1 := match m.2.1 with | some t => h.remove t | none => h
      let h2 := match m.2.2 with | some hd => h1.insert hd | none => h1
      jumpLoop n m.1 h2

/-- One iteration of the `while window.has_frame()` loop of `Delta::diff`. -/
def diffStep (sig : IndexedSignature) (st : DiffState) : DiffState :=
  match Delta.find_match sig st.hasher.digest st.w st.last with
  | some block_idx =>
    let ops1 :=
      if st.ins_buffer.isEmpty then st.ops
      else st.ops ++ [Operation.Insert st.ins_buffer (st.w.bytes_read - st.ins_buffer.length)]
    let ops2 :=
      if st.last + 1 < (block_idx : Int) then
        ops1 ++ [Operation.Remove st.w.bytes_read
          (((st.w.block_size : Int) * ((block_idx : Int) - st.last - 1)).toNat)]
      else ops1
    let wh := jumpLoop st.w.block_size st.w st.hasher
    { w := wh.1, hasher := wh.2, ins_buffer := [], last := (block_idx : Int), ops := ops2 }
  | none =>
    let m := st.w.move_forword
    let h1 := match m.2.1 with | some t => st.hasher.remove t | none => st.hasher
    let h2 := match m.2.2 with | some hd => h1.insert hd | none => h1
    { w := m.1, hasher := h2, ins_buffer := st.ins_buffer ++ m.2.1.toList,
      last := st.last, ops := st.ops }

/-- The scan loop, fuelled.  `diffCore` passes fuel `|B| + 1`, which is
sufficient: each iteration consumes at least one unread or framed byte. -/
def diffLoop (sig : IndexedSignature) : Nat → DiffState → DiffState
  | 0, st => st
  | fuel + 1, st =>
    if st.w.has_frame then diffLoop sig fuel (diffStep sig st) else st

/-- The state `Delta::diff` starts the loop from: a fresh window over `buf`
and the hasher primed with `window.frame().0` (the full front). -/
def initState (sig : IndexedSignature) (buf : List Nat) : DiffState :=
  { w := Window.new buf sig.block_size
    hasher := RollingHasher.new.update (Window.new buf sig.block_size).frame.1
    ins_buffer := []
    last := -1
    ops := [] }

/-- `Delta::diff` minus the `io::Result` wrapper (see `diffCoreE` below for
the error plumbing): run the loop, flush the insert buffer, and emit the
final remove when blocks of A remain unmatched. -/
def Delta.diffCore (sig : IndexedSignature) (buf : List Nat) : List Operation :=
  let st := diffLoop sig (buf.length + 1) (initState sig buf)
  let ops1 :=
    if st.ins_buffer.isEmpty then st.ops
    else st.ops ++ [Operation.Insert st.ins_buffer (st.w.bytes_read - st.ins_buffer.length)]
  let obc := (sig.original_buffer_len + sig.block_size - 1) / sig.block_size
  if st.last + 1 < (obc : Int) then
    ops1 ++ [Operation.Remove st.w.bytes_read
      (((sig.original_buffer_len : Int) - (st.last + 1) * (sig.block_size : Int)).toNat)]
  else ops1

/-! ## Library surface (`src/lib.rs`).  `Signature::with_block_size` asserts
`block_size != 0`; the model renders that panic as `none`. -/

def rsdiff_diff_with_block_size (bs : Nat) (a b : List Nat) : Option (List Operation) :=
  if bs = 0 then none
  else some (Delta.diffCore (Signature.to_indexed bs a) b)

def rsdiff_diff (a b : List Nat) : Option (List Operation) :=
  rsdiff_diff_with_block_size (calculate_block_size (max a.length b.length)) a b

/-! ## Definitions supporting the proofs. -/

/-- The hasher state reached by inserting `l` into a fresh hasher. -/
def wstate (l : List Nat) : RollingHasher := RollingHasher.new.update l

/-- Sum of the biased bytes: the mathematical value of the `a` accumulator. -/
def sumC : List Nat → Nat
  | [] => 0
  | x :: t => (x + 0xDEADC0DE) + sumC t

/-- Position-weighted sum of the biased bytes: the value of `b`. -/
def wsum : List Nat → Nat
  | [] => 0
  | x :: t => (t.length + 1) * (x + 0xDEADC0DE) + wsum t

/-- The `j`-th `block_size`-chunk of a buffer. -/
def chunkAt (bs : Nat) (B : List Nat) (j : Nat) : List Nat :=
  (B.drop (j * bs)).take bs

/-- Offsets of the `Insert` operations of a script, in emission order. -/
def insOffsets : List Operation → List Nat
  | [] => []
  | Operation.Insert _ o :: rest => o :: insOffsets rest
  | Operation.Remove _ _ :: rest => insOffsets rest

/-- Offsets of the `Remove` operations of a script, in emission order. -/
def remOffsets : List Operation → List Nat
  | [] => []
  | Operation.Insert _ _ :: rest => remOffsets rest
  | Operation.Remove o _ :: rest => o :: remOffsets rest

/-- A script that applies as a no-op: empty, or all Inserts have empty
buffers and all Removes have len 0. -/
def noopScript (ops : List Operation) : Prop :=
  ops = [] ∨ ∀ op ∈ ops, op.len = 0

instance (ops : List Operation) : Decidable (noopScript ops) := by
  unfold noopScript; infer_instance

/-- Well-formedness of window states reachable from `Window.new`:
the frames never exceed `block_size`, the cursor is exhausted as soon as a
short read happened, and the offset stays within the front frame. -/
def WinWF (w : Window) : Prop :=
  1 ≤ w.block_size ∧
  w.front.length ≤ w.block_size ∧
  w.back.length ≤ w.block_size ∧
  w.offset ≤ w.front.length ∧
  (w.back.length < w.block_size → w.rest = []) ∧
  (w.front.length < w.block_size → w.back = [] ∧ w.rest = [])

/-- Bytes still to be served by the window, framed plus unread. -/
def winMeasure (w : Window) : Nat := w.frame_size + w.rest.length

/-- Bytes of B not yet consumed as tails: the logical remainder. -/
def remBytes (w : Window) : List Nat :=
  w.front.drop w.offset ++ w.back ++ w.rest

/-- The scan state after the first `j ≥ 1` aligned blocks of B were matched
against blocks `0 .. j-1` of A: the window sits at the end of its front
frame (chunk `j-1`), with chunk `j` framed in `back` and the hasher primed
over it; nothing was emitted. -/
def midState (bs : Nat) (B : List Nat) (j : Nat) : DiffState :=
  { w := { front := chunkAt bs B (j - 1)
           back := chunkAt bs B j
           block_size := bs
           offset := bs
           bytes_read := j * bs
           rest := B.drop ((j + 1) * bs) }
    hasher := wstate (chunkAt bs B j)
    ins_buffer := []
    last := (j : Int) - 1
    ops := [] }

/-- The 64-byte buffer used to exhibit a weak-hash collision between its two
32-byte blocks `[5,16,0,…,0]` and `[13,8,0,…,0]` (equal byte sums give equal
`a`; the `b` accumulators differ by 8, in a bit masked away by the
`(b <<< 16) ||| a` digest overlap). -/
def cexA2 : List Nat := [5, 16] ++ List.replicate 30 0 ++ [13, 8] ++ List.replicate 30 0

/-! ## Error plumbing (`io::Result`) mirrored with `Except`.

Modelled from the spec: the scanner "reports failure only for underlying
read errors from B" and the window wraps a pull-source over B.  The source
under scrutiny reads from an `io::Cursor` over an in-memory slice, whose
`Read` implementation is total (it copies from memory and cannot fail), so
the pull below always returns `Except.ok`. -/

/-- Modelled from the spec: a `Read::read` pull of up to `n` bytes from an
`io::Cursor` over an in-memory buffer; it never fails. -/
def cursorReadE (rest : List Nat) (n : Nat) : Except String (List Nat × List Nat) :=
  Except.ok (rest.take n, rest.drop n)

def Window.newE (buffer : List Nat) (bs : Nat) : Except String Window :=
  match cursorReadE buffer bs with
  | Except.ok r1 =>
    match cursorReadE r1.2 bs with
    | Except.ok r2 =>
      Except.ok { front := r1.1, back := r2.1, block_size := bs,
                  offset := 0, bytes_read := 0, rest := r2.2 }
    | Except.error e => Except.error e
  | Except.error e => Except.error e

def Window.read_nextE (w : Window) : Except String Window :=
  match cursorReadE w.rest w.block_size with
  | Except.ok rd =>
    Except.ok { w with front := w.back, back := rd.1, rest := rd.2, offset := 0 }
  | Except.error e => Except.error e

def Window.move_forwordE (w : Window) : Except String (Window × (Option Nat × Option Nat)) :=
  if w.front.isEmpty then Except.ok (w, (none, none))
  else if w.front.length ≤ w.offset then
    if w.back.isEmpty then Except.ok (w, (none, none))
    else
      match w.read_nextE with
      | Except.ok w2 => Except.ok w2.stepw
      | Except.error e => Except.error e
  else Except.ok w.stepw

def jumpLoopE : Nat → Window → RollingHasher → Except String (Window × RollingHasher)
  | 0, w, h => Except.ok (w, h)
  | n + 1, w, h =>
    if w.on_boundry ∧ w.frame_size = 0 then Except.ok (w, h)
    else
      match w.move_forwordE with
      | Except.ok m =>
        let h1 := match m.2.1 with | some t => h.remove t | none => h
        let h2 := match m.2.2 with | some hd => h1.insert hd | none => h1
        jumpLoopE n m.1 h2
      | Except.error e => Except.error e

def diffStepE (sig : IndexedSignature) (st : DiffState) : Except String DiffState :=
  match Delta.find_match sig st.hasher.digest st.w st.last with
  | some block_idx =>
    let ops1 :=
      if st.ins_buffer.isEmpty then st.ops
      else st.ops ++ [Operation.Insert st.ins_buffer (st.w.bytes_read - st.ins_buffer.length)]
    let ops2 :=
      if st.last + 1 < (block_idx : Int) then
        ops1 ++ [Operation.Remove st.w.bytes_read
          (((st.w.block_size : Int) * ((block_idx : Int) - st.last - 1)).toNat)]
      else ops1
    match jumpLoopE st.w.block_size st.w st.hasher with
    | Except.ok wh =>
      Except.ok { w := wh.1, hasher := wh.2, ins_buffer := [],
                  last := (block_idx : Int), ops := ops2 }
    | Except.error e => Except.error e
  | none =>
    match st.w.move_forwordE with
    | Except.ok m =>
      let h1 := match m.2.1 with | some t => st.hasher.remove t | none => st.hasher
      let h2 := match m.2.2 with | some hd => h1.insert hd | none => h1
      Except.ok { w := m.1, hasher := h2, ins_buffer := st.ins_buffer ++ m.2.1.toList,
                  last := st.last, ops := st.ops }
    | Except.error e => Except.error e

def diffLoopE (sig : IndexedSignature) : Nat → DiffState → Except String DiffState
  | 0, st => Except.ok st
  | fuel + 1, st =>
    if st.w.has_frame then
      match diffStepE sig st with
      | Except.ok st2 => diffLoopE sig fuel st2
      | Except.error e => Except.error e
    else Except.ok st

/-- `Delta::diff` with its `io::Result` plumbing. -/
def diffCoreE (sig : IndexedSignature) (buf : List Nat) : Except String (List Operation) :=
  match Window.newE buf sig.block_size with
  | Except.ok w0 =>
    let st0 : DiffState :=
      { w := w0, hasher := RollingHasher.new.update w0.frame.1,
        ins_buffer := [], last := -1, ops := [] }
    match diffLoopE sig (buf.length + 1) st0 with
    | Except.ok st =>
      let ops1 :=
        if st.ins_buffer.isEmpty then st.ops
        else st.ops ++ [Operation.Insert st.ins_buffer (st.w.bytes_read - st.ins_buffer.length)]
      let obc := (sig.original_buffer_len + sig.block_size - 1) / sig.block_size
      if st.last + 1 < (obc : Int) then
        Except.ok (ops1 ++ [Operation.Remove st.w.bytes_read
          (((sig.original_buffer_len : Int) - (st.last + 1) * (sig.block_size : Int)).toNat)])
      else Except.ok ops1
    | Except.error e => Except.error e
  | Except.error e => Except.error e

/-- The invariant behind offset monotonicity: within the accumulated
script, insert offsets and remove offsets are each non-decreasing, the
insert buffer never outgrows `bytes_read`, and the last emitted offsets
are below the positions the loop can emit at next. -/
def monoInv (st : DiffState) : Prop :=
  st.ins_buffer.length ≤ st.w.bytes_read ∧
  List.Chain' (· ≤ ·) (insOffsets st.ops) ∧
  List.Chain' (· ≤ ·) (remOffsets st.ops) ∧
  (∀ o ∈ (insOffsets st.ops).getLast?, o ≤ st.w.bytes_read - st.ins_buffer.length) ∧
  (∀ o ∈ (remOffsets st.ops).getLast?, o ≤ st.w.bytes_read)

/-! ## Rolling-hash algebra. -/

theorem U32_pos : 0 < U32 := by norm_num [U32]

theorem RollingHasher.hasher_ext {p q : RollingHasher}
    (ha : p.a = q.a) (hb : p.b = q.b) (hc : p.count = q.count) : p = q := by
  cases p; cases q; simp_all

theorem update_nil (st : RollingHasher) : st.update [] = st := rfl

theorem update_cons (st : RollingHasher) (x : Nat) (t : List Nat) :
    st.update (x :: t) = (st.insert x).update t := by
  rw [RollingHasher.update, RollingHasher.update, List.foldl_cons]

theorem insert_a (st : RollingHasher) (x : Nat) :
    (st.insert x).a = (st.a + (x + 0xDEADC0DE) % U32) % U32 := rfl

theorem insert_b (st : RollingHasher) (x : Nat) :
    (st.insert x).b = (st.b + (st.a + (x + 0xDEADC0DE) % U32) % U32) % U32 := rfl

theorem insert_count (st : RollingHasher) (x : Nat) :
    (st.insert x).count = st.count + 1 := rfl

theorem remove_a (st : RollingHasher) (x : Nat) :
    (st.remove x).a = (st.a + (U32 - (x + 0xDEADC0DE) % U32)) % U32 := rfl

theorem remove_b (st : RollingHasher) (x : Nat) :
    (st.remove x).b
      = (st.b + (U32 - (st.count % U32) * ((x + 0xDEADC0DE) % U32) % U32)) % U32 := rfl

theorem remove_count (st : RollingHasher) (x : Nat) :
    (st.remove x).count = st.count - 1 := rfl

/-- Transfer an equality of `% U32` residues to `ZMod U32`. -/
theorem mod_eq_of_zmod {X Y : Nat} (h : (X : ZMod U32) = (Y : ZMod U32)) :
    X % U32 = Y % U32 :=
  (ZMod.natCast_eq_natCast_iff' X Y U32).mp h

theorem update_count (l : List Nat) : ∀ st : RollingHasher,
    (st.update l).count = st.count + l.length := by
  induction l with
  | nil => intro st; rw [update_nil]; simp
  | cons x t ih =>
    intro st
    rw [update_cons, ih, insert_count]
    simp
    omega

theorem insert_a_lt (st : RollingHasher) (x : Nat) : (st.insert x).a < U32 := by
  rw [insert_a]; exact Nat.mod_lt _ U32_pos

theorem insert_b_lt (st : RollingHasher) (x : Nat) : (st.insert x).b < U32 := by
  rw [insert_b]; exact Nat.mod_lt _ U32_pos

theorem update_closed (l : List Nat) : ∀ st : RollingHasher, st.a < U32 → st.b < U32 →
    (st.update l).a = (st.a + sumC l) % U32 ∧
    (st.update l).b = (st.b + l.length * st.a + wsum l) % U32 := by
  induction l with
  | nil =>
    intro st ha hb
    rw [update_nil]
    constructor
    · simp [sumC, Nat.mod_eq_of_lt ha]
    · simp [wsum, Nat.mod_eq_of_lt hb]
  | cons x t ih =>
    intro st ha hb
    obtain ⟨iha, ihb⟩ := ih (st.insert x) (insert_a_lt st x) (insert_b_lt st x)
    rw [update_cons]
    constructor
    · rw [iha, insert_a]
      apply mod_eq_of_zmod
      show _ = ((st.a + sumC (x :: t) : Nat) : ZMod U32)
      rw [sumC]
      push_cast [ZMod.natCast_mod]
      ring
    · rw [ihb, insert_a, insert_b]
      apply mod_eq_of_zmod
      show _ = ((st.b + (x :: t).length * st.a + wsum (x :: t) : Nat) : ZMod U32)
      rw [wsum]
      push_cast [ZMod.natCast_mod, List.length_cons]
      ring

theorem new_a : RollingHasher.new.a = 0 := rfl

theorem new_b : RollingHasher.new.b = 0 := rfl

theorem new_count : RollingHasher.new.count = 0 := rfl

theorem wstate_a (l : List Nat) : (wstate l).a = sumC l % U32 := by
  have h := (update_closed l RollingHasher.new U32_pos U32_pos).1
  rw [new_a, Nat.zero_add] at h
  exact h

theorem wstate_b (l : List Nat) : (wstate l).b = wsum l % U32 := by
  have h := (update_closed l RollingHasher.new U32_pos U32_pos).2
  simp only [new_a, new_b, Nat.mul_zero, Nat.zero_add] at h
  exact h

theorem wstate_count (l : List Nat) : (wstate l).count = l.length := by
  have h := update_count l RollingHasher.new
  rw [new_count, Nat.zero_add] at h
  exact h

/-- Rolling the head byte out of the state for `x :: t` yields the state
for `t`: the heart of the rolling property. -/
theorem remove_wstate_cons (x : Nat) (t : List Nat) :
    (wstate (x :: t)).remove x = wstate t := by
  have hbb : (x + 0xDEADC0DE) % U32 ≤ U32 := le_of_lt (Nat.mod_lt _ U32_pos)
  have hcb : ((t.length + 1) % U32) * ((x + 0xDEADC0DE) % U32) % U32 ≤ U32 :=
    le_of_lt (Nat.mod_lt _ U32_pos)
  apply RollingHasher.hasher_ext
  · rw [remove_a, wstate_a, wstate_a, sumC]
    apply mod_eq_of_zmod
    simp only [ZMod.natCast_mod, Nat.cast_add]
    rw [Nat.cast_sub hbb, ZMod.natCast_self]
    simp only [ZMod.natCast_mod, Nat.cast_add]
    ring
  · rw [remove_b, wstate_b, wstate_b, wstate_count, wsum, List.length_cons]
    apply mod_eq_of_zmod
    simp only [ZMod.natCast_mod, Nat.cast_add, Nat.cast_mul]
    rw [Nat.cast_sub hcb, ZMod.natCast_self]
    simp only [ZMod.natCast_mod, Nat.cast_add, Nat.cast_mul]
    ring
  · rw [remove_count, wstate_count, wstate_count]
    simp

/-- Inserting one more byte extends the state list on the right. -/
theorem wstate_append_one (l : List Nat) (x : Nat) :
    wstate (l ++ [x]) = (wstate l).insert x := by
  rw [wstate, wstate, RollingHasher.update, RollingHasher.update, List.foldl_append,
    List.foldl_cons, List.foldl_nil]

/-- Removing, in order, the bytes of a prefix from the full state leaves the
state of the remainder. -/
theorem foldl_remove_wstate (p : List Nat) : ∀ t : List Nat,
    p.foldl RollingHasher.remove (wstate (p ++ t)) = wstate t := by
  induction p with
  | nil => intro t; rw [List.nil_append, List.foldl_nil]
  | cons x p2 ih =>
    intro t
    rw [List.cons_append, List.foldl_cons, remove_wstate_cons]
    exact ih t

/-! ## Claims settled directly on the hash and window models. -/

/-- C4: for every byte sequence `s = p ++ t` with prefix `p`, inserting the
bytes of `s` in order into a fresh hasher and then calling `remove` on the
bytes of `p` in order leaves the hasher with digest `weak_hash (s[|p|..])`
(all arithmetic wrapping mod 2^32). -/
theorem claim_C4 (p t : List Nat) :
    (p.foldl RollingHasher.remove (wstate (p ++ t))).digest
      = weak_hash ((p ++ t).drop p.length) := by
  rw [List.drop_left, foldl_remove_wstate]
  rfl

/-- C8: the weak hash has the specified bit patterns: `weak_hash [] = 0`,
`weak_hash [0] = (0xDEADC0DE << 16) | 0xDEADC0DE` as a `u32`,
`weak_hash "Wikipedia" = 0xFCFBCB65`, and for every byte the bias added
before accumulation is exactly `0xDEADC0DE` (visible in the single-byte
digest formula). -/
theorem claim_C8 : weak_hash [] = 0 ∧
    weak_hash [0] = ((0xDEADC0DE <<< 16) % U32) ||| 0xDEADC0DE ∧
    weak_hash [87, 105, 107, 105, 112, 101, 100, 105, 97] = 0xFCFBCB65 ∧
    ∀ byte : Nat, weak_hash [byte]
      = ((((byte + 0xDEADC0DE) % U32) <<< 16) % U32) ||| ((byte + 0xDEADC0DE) % U32) := by
  refine ⟨by decide, by decide, by decide, ?_⟩
  intro byte
  have hlt : (byte + 0xDEADC0DE) % U32 < U32 := Nat.mod_lt _ U32_pos
  show (wstate [byte]).digest = _
  rw [RollingHasher.digest, wstate_a, wstate_b]
  have hs : sumC [byte] = byte + 0xDEADC0DE := by simp [sumC]
  have hw : wsum [byte] = byte + 0xDEADC0DE := by simp [wsum]
  rw [hs, hw]

/-- C7: once the window is exhausted (offset at the end of the front frame
and the back frame empty, i.e. `frame_size = 0` under the reachable-state
bound `offset ≤ front.length`), `frame()` returns two empty slices and
`move_forword` returns `(None, None)` leaving the whole window state, in
particular `offset` and `bytes_read`, unchanged. -/
theorem claim_C7 (w : Window) (h1 : w.offset ≤ w.front.length)
    (h2 : w.frame_size = 0) :
    w.frame = ([], []) ∧ w.move_forword = (w, (none, none)) := by
  have hback : w.back = [] := by
    rw [Window.frame_size] at h2
    have : w.back.length = 0 := by omega
    exact List.length_eq_zero.mp this
  have hoff : w.offset = w.front.length := by
    rw [Window.frame_size] at h2
    have := w.back.length.zero_le
    omega
  refine ⟨?_, ?_⟩
  · rw [Window.frame, hoff, hback, List.drop_length, List.take_nil]
  · simp [Window.move_forword, hoff, hback]

/-- C7 witness: the empty window over an empty buffer satisfies the
hypotheses and the conclusion. -/
theorem claim_C7_witness :
    (Window.new [] 3).offset ≤ (Window.new [] 3).front.length ∧
    (Window.new [] 3).frame_size = 0 ∧
    ((Window.new [] 3).frame = ([], []) ∧
      (Window.new [] 3).move_forword = (Window.new [] 3, (none, none))) :=
  ⟨by decide, by decide, claim_C7 (Window.new [] 3) (by decide) (by decide)⟩

/-- C3: `find_match` reports a match at index `i` iff the probed weak digest
is a key of the index mapping to entry `(i, block)`, the truncated Blake2b
digest of the frame bytes (front part then back part) equals the block's
strong hash, and `i` is strictly greater than `last_matching_block_idx`.
In particular a weak-hash collision (lookup hit whose strong hash differs)
never yields a match. -/
theorem find_match_of_lookup_none (sig : IndexedSignature) (weakh : Nat) (w : Window)
    (last : Int) (hl : sigLookup sig weakh = none) :
    Delta.find_match sig weakh w last = none := by
  rw [Delta.find_match, hl]

theorem find_match_of_lookup_some (sig : IndexedSignature) (weakh : Nat) (w : Window)
    (last : Int) (j : Nat) (blk : BlockHash) (hl : sigLookup sig weakh = some (j, blk)) :
    Delta.find_match sig weakh w last
      = if blk.crypto_hash = blake2bTrunc (w.frame.1 ++ w.frame.2) ∧ last < (j : Int)
        then some j else none := by
  rw [Delta.find_match, hl]

theorem claim_C3 (sig : IndexedSignature) (weakh : Nat) (w : Window) (last : Int) (i : Nat) :
    Delta.find_match sig weakh w last = some i ↔
      ∃ blk : BlockHash, sigLookup sig weakh = some (i, blk) ∧
        blk.crypto_hash = blake2bTrunc (w.frame.1 ++ w.frame.2) ∧ last < (i : Int) := by
  cases hl : sigLookup sig weakh with
  | none =>
    rw [find_match_of_lookup_none sig weakh w last hl]
    simp
  | some p =>
    obtain ⟨j, blk⟩ := p
    rw [find_match_of_lookup_some sig weakh w last j blk hl]
    by_cases hc : blk.crypto_hash = blake2bTrunc (w.frame.1 ++ w.frame.2) ∧ last < (j : Int)
    · rw [if_pos hc]
      constructor
      · intro h
        obtain rfl : j = i := by injection h
        exact ⟨blk, rfl, hc.1, hc.2⟩
      · intro ⟨blk2, hb, _, _⟩
        injection hb with hb2
        rw [Prod.mk.injEq] at hb2
        rw [hb2.1]
    · rw [if_neg hc]
      constructor
      · intro h; cases h
      · intro ⟨blk2, hb, hcr, hlt⟩
        injection hb with hb2
        rw [Prod.mk.injEq] at hb2
        obtain ⟨rfl, rfl⟩ := hb2
        exact absurd ⟨hcr, hlt⟩ hc

/-- C1: the claim that the convenience `diff(A, B)` never panics is wrong:
for derived lengths strictly between 1024 and 16384 the block-size
heuristic computes `floor(sqrt(len)) & !127 = 0` (the square root is below
128, so the mask clears every bit), and `Signature::with_block_size`'s
`assert!(block_size != 0)` fires.  The model returns `none` exactly where
the Rust code panics; at length 2000 the derived block size is
`44 & !127 = 0`. -/
theorem claim_C1 : calculate_block_size 2000 = 0 ∧
    rsdiff_diff (List.replicate 2000 0) [] = none := by
  refine ⟨by decide, ?_⟩
  rw [rsdiff_diff, List.length_replicate, List.length_nil]
  rw [show max 2000 0 = 2000 by decide]
  rw [show calculate_block_size 2000 = 0 by decide]
  rw [rsdiff_diff_with_block_size, if_pos rfl]

/-! ## The I/O error branch is unreachable over in-memory buffers. -/

theorem newE_eq (buffer : List Nat) (bs : Nat) :
    Window.newE buffer bs = Except.ok (Window.new buffer bs) := rfl

theorem read_nextE_eq (w : Window) :
    w.read_nextE = Except.ok w.read_next := rfl

theorem moveE_eq (w : Window) :
    w.move_forwordE = Except.ok w.move_forword := by
  rw [Window.move_forwordE, Window.move_forword]
  split_ifs <;> rfl

theorem jumpLoopE_eq (n : Nat) : ∀ (w : Window) (h : RollingHasher),
    jumpLoopE n w h = Except.ok (jumpLoop n w h) := by
  induction n with
  | zero => intro w h; rfl
  | succ n ih =>
    intro w h
    rw [jumpLoopE, jumpLoop]
    split_ifs with hb
    · rfl
    · rw [moveE_eq]
      exact ih _ _

theorem diffStepE_eq (sig : IndexedSignature) (st : DiffState) :
    diffStepE sig st = Except.ok (diffStep sig st) := by
  rw [diffStepE, diffStep]
  cases Delta.find_match sig st.hasher.digest st.w st.last with
  | some bi => rw [jumpLoopE_eq]
  | none => rw [moveE_eq]

theorem diffLoopE_eq (sig : IndexedSignature) (fuel : Nat) : ∀ st : DiffState,
    diffLoopE sig fuel st = Except.ok (diffLoop sig fuel st) := by
  induction fuel with
  | zero => intro st; rfl
  | succ fuel ih =>
    intro st
    rw [diffLoopE, diffLoop]
    split_ifs with hf
    · rw [diffStepE_eq]
      exact ih _
    · rfl

/-- C10: over an in-memory buffer, `Window::new` and every `move_forword`
call return `Ok`, hence `Delta::diff` always returns `Ok` of the
operations `diffCore` computes, the `.unwrap()` in `diff_with_block_size`
never panics, and the I/O error branch is unreachable. -/
theorem claim_C10 :
    (∀ (buffer : List Nat) (bs : Nat),
        Window.newE buffer bs = Except.ok (Window.new buffer bs)) ∧
    (∀ w : Window, w.move_forwordE = Except.ok w.move_forword) ∧
    (∀ (sig : IndexedSignature) (buf : List Nat),
        diffCoreE sig buf = Except.ok (Delta.diffCore sig buf)) := by
  refine ⟨newE_eq, moveE_eq, ?_⟩
  intro sig buf
  rw [diffCoreE, Delta.diffCore, initState]
  simp only [newE_eq, diffLoopE_eq]
  split_ifs <;> rfl

/-! ## Offset monotonicity (C9). -/

theorem insOffsets_append (l1 l2 : List Operation) :
    insOffsets (l1 ++ l2) = insOffsets l1 ++ insOffsets l2 := by
  induction l1 with
  | nil => rfl
  | cons op rest ih =>
    cases op <;> simp only [List.cons_append, insOffsets, List.append_eq, ih, List.nil_append]

theorem remOffsets_append (l1 l2 : List Operation) :
    remOffsets (l1 ++ l2) = remOffsets l1 ++ remOffsets l2 := by
  induction l1 with
  | nil => rfl
  | cons op rest ih =>
    cases op <;> simp only [List.cons_append, remOffsets, List.append_eq, ih, List.nil_append]

theorem chain_snoc {l : List Nat} {x : Nat} (hc : List.Chain' (· ≤ ·) l)
    (hl : ∀ o ∈ l.getLast?, o ≤ x) : List.Chain' (· ≤ ·) (l ++ [x]) := by
  rw [List.chain'_append]
  refine ⟨hc, List.chain'_singleton x, ?_⟩
  intro a ha b hb
  simp only [List.head?_cons, Option.mem_def, Option.some.injEq] at hb
  subst hb
  exact hl a ha

/-- Each `move_forword` advances `bytes_read` by exactly the number of
tail bytes it returns (one on a slide, zero on an exhausted window). -/
theorem move_br (w : Window) :
    (w.move_forword).1.bytes_read = w.bytes_read + (w.move_forword).2.1.toList.length := by
  rw [Window.move_forword]
  split_ifs with h1 h2 h3
  · rfl
  · rfl
  · have hb : ¬ w.back = [] := by
      intro hc
      rw [hc] at h3
      exact h3 rfl
    obtain ⟨y, ys, hy⟩ := List.exists_cons_of_ne_nil hb
    simp [Window.stepw, Window.read_next, Window.tail, hy]
  · have hofflt : w.offset < w.front.length := Nat.lt_of_not_le h2
    have ht : w.front[w.offset]? = some (w.front.get ⟨w.offset, hofflt⟩) :=
      List.getElem?_eq_getElem hofflt
    simp [Window.stepw, Window.tail, ht]

theorem move_br_ge (w : Window) : w.bytes_read ≤ (w.move_forword).1.bytes_read := by
  rw [move_br]
  exact Nat.le_add_right _ _

theorem jump_br_ge (n : Nat) : ∀ (w : Window) (h : RollingHasher),
    w.bytes_read ≤ (jumpLoop n w h).1.bytes_read := by
  induction n with
  | zero => intro w h; exact Nat.le_refl _
  | succ n ih =>
    intro w h
    rw [jumpLoop]
    split_ifs with hb
    · exact Nat.le_refl _
    · exact Nat.le_trans (move_br_ge w) (ih _ _)


theorem monoInv_step (sig : IndexedSignature) (st : DiffState) (hinv : monoInv st) :
    monoInv (diffStep sig st) := by
  obtain ⟨hlen, hci, hcr, hbi, hbr⟩ := hinv
  rw [diffStep]
  cases Delta.find_match sig st.hasher.digest st.w st.last with
  | some bi =>
    have hjump : st.w.bytes_read ≤ (jumpLoop st.w.block_size st.w st.hasher).1.bytes_read :=
      jump_br_ge _ _ _
    by_cases he : st.ins_buffer.isEmpty <;> by_cases hgap : st.last + 1 < (bi : Int) <;>
      simp only [he, hgap, Bool.false_eq_true, ite_true, ite_false, if_true, if_false,
        monoInv, insOffsets_append, remOffsets_append, insOffsets, remOffsets,
        List.append_nil, List.getLast?_concat]
    · refine ⟨by simp, hci, chain_snoc hcr hbr, ?_, ?_⟩
      · intro o ho
        have h1 := hbi o ho
        simp only [List.length_nil]
        omega
      · intro o ho
        simp only [Option.mem_def, Option.some.injEq] at ho
        omega
    · refine ⟨by simp, hci, hcr, ?_, ?_⟩
      · intro o ho
        have h1 := hbi o ho
        simp only [List.length_nil]
        omega
      · intro o ho
        have h1 := hbr o ho
        omega
    · refine ⟨by simp, chain_snoc hci hbi, chain_snoc hcr hbr, ?_, ?_⟩
      · intro o ho
        simp only [Option.mem_def, Option.some.injEq] at ho
        simp only [List.length_nil]
        omega
      · intro o ho
        simp only [Option.mem_def, Option.some.injEq] at ho
        omega
    · refine ⟨by simp, chain_snoc hci hbi, hcr, ?_, ?_⟩
      · intro o ho
        simp only [Option.mem_def, Option.some.injEq] at ho
        simp only [List.length_nil]
        omega
      · intro o ho
        have h1 := hbr o ho
        omega
  | none =>
    have hmv := move_br st.w
    simp only [monoInv, List.length_append]
    refine ⟨?_, hci, hcr, ?_, ?_⟩
    · omega
    · intro o ho
      have h1 := hbi o ho
      omega
    · intro o ho
      have h1 := hbr o ho
      omega

theorem monoInv_loop (sig : IndexedSignature) (fuel : Nat) : ∀ st : DiffState,
    monoInv st → monoInv (diffLoop sig fuel st) := by
  induction fuel with
  | zero => intro st h; exact h
  | succ fuel ih =>
    intro st h
    rw [diffLoop]
    split_ifs with hf
    · exact ih _ (monoInv_step sig st h)
    · exact h

theorem monoInv_init (sig : IndexedSignature) (buf : List Nat) :
    monoInv (initState sig buf) := by
  simp [monoInv, initState, insOffsets, remOffsets, Window.new]

/-- C9: in every script produced by `Delta::diff`, the offsets of the
`Insert` operations are non-decreasing in emission order, and likewise the
offsets of the `Remove` operations. -/
theorem claim_C9 (sig : IndexedSignature) (buf : List Nat) :
    List.Chain' (· ≤ ·) (insOffsets (Delta.diffCore sig buf)) ∧
    List.Chain' (· ≤ ·) (remOffsets (Delta.diffCore sig buf)) := by
  obtain ⟨hlen, hci, hcr, hbi, hbr⟩ :=
    monoInv_loop sig (buf.length + 1) _ (monoInv_init sig buf)
  rw [Delta.diffCore]
  by_cases he : (diffLoop sig (buf.length + 1) (initState sig buf)).ins_buffer.isEmpty <;>
    by_cases hrem : (diffLoop sig (buf.length + 1) (initState sig buf)).last + 1
      < (((sig.original_buffer_len + sig.block_size - 1) / sig.block_size : Nat) : Int) <;>
    simp only [he, hrem, Bool.false_eq_true, ite_true, ite_false, if_true, if_false,
      insOffsets_append, remOffsets_append, insOffsets, remOffsets,
      List.append_nil, List.getLast?_concat]
  · exact ⟨hci, chain_snoc hcr hbr⟩
  · exact ⟨hci, hcr⟩
  · refine ⟨chain_snoc hci hbi, chain_snoc hcr ?_⟩
    intro o ho
    have h1 := hbr o ho
    omega
  · exact ⟨chain_snoc hci hbi, hcr⟩

/-! ## Chunk and index lemmas. -/

theorem chunksOfAux_nil (bs : Nat) : ∀ f, chunksOfAux f bs [] = [] := by
  intro f; cases f <;> rfl

theorem chunksOfAux_congr (bs : Nat) (hbs : 1 ≤ bs) : ∀ (f g : Nat) (l : List Nat),
    l.length ≤ f → l.length ≤ g → chunksOfAux f bs l = chunksOfAux g bs l := by
  intro f
  induction f with
  | zero =>
    intro g l hf _
    have : l = [] := List.eq_nil_of_length_eq_zero (Nat.le_zero.mp hf)
    subst this
    rw [chunksOfAux_nil, chunksOfAux_nil]
  | succ f ih =>
    intro g l hf hg
    cases l with
    | nil => rw [chunksOfAux_nil, chunksOfAux_nil]
    | cons x xs =>
      cases g with
      | zero => simp at hg
      | succ g =>
        show (x :: xs).take bs :: chunksOfAux f bs ((x :: xs).drop bs)
          = (x :: xs).take bs :: chunksOfAux g bs ((x :: xs).drop bs)
        have hd : ((x :: xs).drop bs).length ≤ f := by
          rw [List.length_drop]
          simp only [List.length_cons] at hf ⊢
          omega
        have hd2 : ((x :: xs).drop bs).length ≤ g := by
          rw [List.length_drop]
          simp only [List.length_cons] at hg ⊢
          omega
        rw [ih g _ hd hd2]

theorem chunksOf_nil (bs : Nat) : chunksOf bs [] = [] := by
  rw [chunksOf]
  split_ifs <;> rfl

theorem chunksOf_cons (bs : Nat) (hbs : 1 ≤ bs) (l : List Nat) (hl : l ≠ []) :
    chunksOf bs l = l.take bs :: chunksOf bs (l.drop bs) := by
  rw [chunksOf, chunksOf, if_neg (by omega), if_neg (by omega)]
  obtain ⟨x, xs, rfl⟩ := List.exists_cons_of_ne_nil hl
  show (x :: xs).take bs :: chunksOfAux xs.length bs ((x :: xs).drop bs) = _
  congr 1
  apply chunksOfAux_congr bs hbs
  · rw [List.length_drop]
    simp
    omega
  · rfl

theorem cdiv_zero (bs : Nat) (hbs : 1 ≤ bs) : (0 + bs - 1) / bs = 0 := by
  apply Nat.div_eq_of_lt
  omega

theorem cdiv_step (bs : Nat) (hbs : 1 ≤ bs) (n : Nat) (hn : 1 ≤ n) :
    (n + bs - 1) / bs = (n - bs + bs - 1) / bs + 1 := by
  rw [Nat.div_eq_sub_div hbs (by omega)]
  by_cases h : bs ≤ n
  · congr 2
    omega
  · have h1 : n - bs = 0 := by omega
    rw [h1]
    have h2 : n + bs - 1 - bs < bs := by omega
    rw [Nat.div_eq_of_lt h2, Nat.div_eq_of_lt (by omega)]

theorem chunksOf_length (bs : Nat) (hbs : 1 ≤ bs) (l : List Nat) :
    (chunksOf bs l).length = (l.length + bs - 1) / bs := by
  suffices H : ∀ (n : Nat) (l : List Nat), l.length = n
      → (chunksOf bs l).length = (l.length + bs - 1) / bs from H l.length l rfl
  intro n
  induction n using Nat.strong_induction_on with
  | _ n ih =>
    intro l hl
    cases l with
    | nil =>
      rw [chunksOf_nil]
      simp only [List.length_nil]
      exact (Nat.div_eq_of_lt (by omega)).symm
    | cons x xs =>
      rw [chunksOf_cons bs hbs _ (by simp), List.length_cons,
        ih ((x :: xs).drop bs).length (by rw [List.length_drop]; simp at hl ⊢; omega) _ rfl,
        List.length_drop, List.length_cons]
      rw [cdiv_step bs hbs (xs.length + 1) (by omega)]

theorem chunksOf_getElem (bs : Nat) (hbs : 1 ≤ bs) : ∀ (j : Nat) (l : List Nat),
    j * bs < l.length → (chunksOf bs l)[j]? = some (chunkAt bs l j) := by
  intro j
  induction j with
  | zero =>
    intro l hj
    have hl : l ≠ [] := by
      intro hc; subst hc; simp at hj
    rw [chunksOf_cons bs hbs l hl]
    simp [chunkAt]
  | succ j ih =>
    intro l hj
    have hl : l ≠ [] := by
      intro hc; subst hc; simp at hj
    rw [chunksOf_cons bs hbs l hl]
    rw [List.getElem?_cons_succ]
    rw [ih (l.drop bs) (by rw [List.length_drop]; simp [Nat.succ_mul] at hj ⊢; omega)]
    rw [chunkAt, chunkAt, List.drop_drop]
    congr 3
    ring

/-! ## Index lookup under distinct weak hashes. -/

theorem find_assoc_nodup {α : Type} : ∀ (l : List (Nat × α)) (k : Nat) (v : α),
    (l.map Prod.fst).Nodup → (k, v) ∈ l → l.find? (fun e => e.1 == k) = some (k, v) := by
  intro l
  induction l with
  | nil => intro k v _ hm; cases hm
  | cons p t ih =>
    intro k v hnd hm
    obtain ⟨k2, v2⟩ := p
    rw [List.map_cons, List.nodup_cons] at hnd
    rw [List.find?_cons]
    by_cases hk : k2 = k
    · subst hk
      cases List.mem_cons.mp hm with
      | inl h =>
        have hv : v = v2 := by
          injection h with h1 h2
        subst hv
        simp
      | inr h =>
        exact absurd (List.mem_map.mpr ⟨(k2, v), h, rfl⟩) hnd.1
    · have hne : ((k2, v2).1 == k) = false := by
        simp [hk]
      rw [hne]
      apply ih k v hnd.2
      cases List.mem_cons.mp hm with
      | inl h =>
        exact absurd (congrArg Prod.fst h).symm hk
      | inr h => exact h

theorem toIndexed_keys (bs : Nat) (a : List Nat) :
    (Signature.to_indexed bs a).blocks.map Prod.fst
      = (chunksOf bs a).map weak_hash := by
  rw [Signature.to_indexed]
  rw [List.map_map]
  rw [show ((Prod.fst ∘ fun p : Nat × BlockHash => (p.2.weak_hash, (p.1, p.2))))
      = (BlockHash.weak_hash ∘ Prod.snd) from rfl]
  rw [← List.map_map, List.enum_map_snd, Signature.blocks, List.map_map]
  rfl

theorem lt_ceil_iff (bs n i : Nat) (hbs : 1 ≤ bs) :
    i < (n + bs - 1) / bs ↔ i * bs < n := by
  rw [show (i < (n + bs - 1) / bs) = (i + 1 ≤ (n + bs - 1) / bs) from rfl]
  rw [Nat.le_div_iff_mul_le hbs]
  constructor
  · intro h
    have h2 : (i + 1) * bs = i * bs + bs := by ring
    omega
  · intro h
    have h2 : (i + 1) * bs = i * bs + bs := by ring
    omega

/-- The block hash the signature stores for chunk `j`. -/
theorem sigLookup_of_nodup (bs : Nat) (hbs : 1 ≤ bs) (a : List Nat)
    (hnd : ((chunksOf bs a).map weak_hash).Nodup) (j : Nat) (hj : j * bs < a.length) :
    sigLookup (Signature.to_indexed bs a) (weak_hash (chunkAt bs a j))
      = some (j, ⟨weak_hash (chunkAt bs a j), blake2bTrunc (chunkAt bs a j)⟩) := by
  rw [sigLookup]
  have hkeys : ((Signature.to_indexed bs a).blocks.reverse.map Prod.fst).Nodup := by
    rw [List.map_reverse]
    apply List.nodup_reverse.mpr
    rw [toIndexed_keys bs a]
    exact hnd
  have hmem : (weak_hash (chunkAt bs a j),
      (j, (⟨weak_hash (chunkAt bs a j), blake2bTrunc (chunkAt bs a j)⟩ : BlockHash)))
      ∈ (Signature.to_indexed bs a).blocks.reverse := by
    rw [List.mem_reverse, Signature.to_indexed]
    apply List.mem_map.mpr
    refine ⟨(j, ⟨weak_hash (chunkAt bs a j), blake2bTrunc (chunkAt bs a j)⟩), ?_, rfl⟩
    apply List.mk_mem_enum_iff_getElem?.mpr
    rw [Signature.blocks, List.getElem?_map, chunksOf_getElem bs hbs j a hj]
    rfl
  rw [find_assoc_nodup _ _ _ hkeys hmem]
  rfl

/-- Every index the lookup can return points at an existing block of A. -/
theorem sigLookup_idx_lt (bs : Nat) (hbs : 1 ≤ bs) (a : List Nat) (key : Nat)
    (i : Nat) (blk : BlockHash)
    (h : sigLookup (Signature.to_indexed bs a) key = some (i, blk)) :
    i * bs < a.length := by
  rw [sigLookup] at h
  obtain ⟨p, hf, hp⟩ := Option.map_eq_some'.mp h
  have hmem := List.mem_of_find?_eq_some hf
  rw [List.mem_reverse, Signature.to_indexed] at hmem
  obtain ⟨q, hq, he⟩ := List.mem_map.mp hmem
  have hqlt : q.1 < (Signature.blocks bs a).length := by
    have := List.mk_mem_enum_iff_getElem?.mp (show (q.1, q.2) ∈ (Signature.blocks bs a).enum from hq)
    exact (List.getElem?_eq_some.mp this).1
  have hqi : q.1 = i := by
    have := congrArg Prod.snd he
    rw [hp] at this
    exact congrArg Prod.fst this
  rw [hqi] at hqlt
  rw [Signature.blocks, List.length_map, chunksOf_length bs hbs] at hqlt
  exact (lt_ceil_iff bs a.length i hbs).mp hqlt

/-! ## Jump simulation: sliding one block forward from an aligned window. -/

theorem jump_full (bs : Nat) (cl dl : List Nat) (hc : cl.length = bs) (hd : dl.length ≤ bs) :
    ∀ (n m br : Nat) (rt : List Nat), m + n = bs →
    jumpLoop n ⟨cl, dl, bs, m, br, rt⟩ (wstate (cl.drop m ++ dl.take m))
      = (⟨cl, dl, bs, bs, br + n, rt⟩, wstate dl) := by
  intro n
  induction n with
  | zero =>
    intro m br rt hm
    have hm2 : m = bs := by omega
    subst hm2
    rw [jumpLoop]
    rw [show List.drop m cl = [] from by rw [← hc]; exact List.drop_length cl]
    rw [List.nil_append, List.take_of_length_le hd, Nat.add_zero]
  | succ n ih =>
    intro m br rt hm
    have hmlt : m < bs := by omega
    rw [jumpLoop]
    rw [if_neg ?hcond]
    case hcond =>
      intro ⟨h1, h2⟩
      rw [Window.frame_size] at h2
      simp only at h2
      omega
    have hmf : ¬ (⟨cl, dl, bs, m, br, rt⟩ : Window).front.length
        ≤ (⟨cl, dl, bs, m, br, rt⟩ : Window).offset := by
      simp only
      omega
    have hfe : ¬ (⟨cl, dl, bs, m, br, rt⟩ : Window).front.isEmpty := by
      simp only [List.isEmpty_iff]
      intro hb
      rw [hb] at hc
      simp at hc
      omega
    rw [Window.move_forword, if_neg (by simpa using hfe), if_neg hmf]
    have hmc : m < cl.length := by omega
    have htl : (⟨cl, dl, bs, m, br, rt⟩ : Window).tail = some (cl[m]) := by
      rw [Window.tail]
      simp only
      exact List.getElem?_eq_getElem hmc
    have hhd : (⟨cl, dl, bs, m, br, rt⟩ : Window).head = dl[m]? := by
      rw [Window.head]
      simp only
      congr 1
      omega
    rw [Window.stepw]
    simp only [htl, hhd]
    have hdrop : cl.drop m ++ dl.take m = (cl[m]) :: (cl.drop (m + 1) ++ dl.take m) := by
      rw [List.drop_eq_getElem_cons hmc, List.cons_append]
    rw [hdrop, remove_wstate_cons]
    cases hdm : dl[m]? with
    | some y =>
      have htk : dl.take (m + 1) = dl.take m ++ [y] := by
        rw [List.take_succ, hdm]
        rfl
      have hins : ((wstate (cl.drop (m + 1) ++ dl.take m)).insert y)
          = wstate (cl.drop (m + 1) ++ dl.take (m + 1)) := by
        rw [htk, ← List.append_assoc, wstate_append_one]
      show jumpLoop n ⟨cl, dl, bs, m + 1, br + 1, rt⟩
          ((wstate (cl.drop (m + 1) ++ dl.take m)).insert y) = _
      rw [hins, ih (m + 1) (br + 1) rt (by omega)]
      congr 2
      omega
    | none =>
      have hml : dl.length ≤ m := by
        by_contra hcon
        rw [List.getElem?_eq_getElem (Nat.lt_of_not_le hcon)] at hdm
        cases hdm
      have htk : dl.take m = dl.take (m + 1) := by
        rw [List.take_of_length_le hml, List.take_of_length_le (by omega)]
      show jumpLoop n ⟨cl, dl, bs, m + 1, br + 1, rt⟩
          (wstate (cl.drop (m + 1) ++ dl.take m)) = _
      rw [htk, ih (m + 1) (br + 1) rt (by omega)]
      congr 2
      omega

/-- Jump behavior when the short final chunk is in front and nothing is
behind: the loop slides to the end of the chunk and then breaks on the
boundary with an empty frame. -/
theorem jump_short (bs : Nat) (cl : List Nat) :
    ∀ (n m br : Nat) (rt : List Nat), m ≤ cl.length → cl.length ≤ m + n →
    jumpLoop n ⟨cl, [], bs, m, br, rt⟩ (wstate (cl.drop m))
      = (⟨cl, [], bs, cl.length, br + (cl.length - m), rt⟩, wstate []) := by
  intro n
  induction n with
  | zero =>
    intro m br rt hm1 hm2
    have hm3 : m = cl.length := by omega
    subst hm3
    rw [jumpLoop, List.drop_length]
    rw [show cl.length - cl.length = 0 from by omega, Nat.add_zero]
  | succ n ih =>
    intro m br rt hm1 hm2
    by_cases hend : m = cl.length
    · subst hend
      rw [jumpLoop, if_pos ?hcnd, List.drop_length]
      case hcnd =>
        constructor
        · right
          rfl
        · rw [Window.frame_size]
          simp only [List.length_nil]
          omega
      rw [show cl.length - cl.length = 0 from by omega, Nat.add_zero]
    · have hmlt : m < cl.length := by omega
      rw [jumpLoop, if_neg ?hcnd]
      case hcnd =>
        intro ⟨h1, h2⟩
        rw [Window.frame_size] at h2
        simp only [List.length_nil] at h2
        omega
      have hmf : ¬ (⟨cl, [], bs, m, br, rt⟩ : Window).front.length
          ≤ (⟨cl, [], bs, m, br, rt⟩ : Window).offset := by
        simp only
        omega
      have hfe : ¬ (⟨cl, [], bs, m, br, rt⟩ : Window).front.isEmpty := by
        simp only [List.isEmpty_iff]
        intro hb
        rw [hb] at hmlt
        simp at hmlt
      rw [Window.move_forword, if_neg (by simpa using hfe), if_neg hmf]
      have htl : (⟨cl, [], bs, m, br, rt⟩ : Window).tail = some (cl[m]) := by
        rw [Window.tail]
        exact List.getElem?_eq_getElem hmlt
      have hhd : (⟨cl, [], bs, m, br, rt⟩ : Window).head = none := by
        rw [Window.head]
        simp
      rw [Window.stepw]
      simp only [htl, hhd]
      have hdrop : cl.drop m = (cl[m]) :: cl.drop (m + 1) :=
        List.drop_eq_getElem_cons hmlt
      rw [hdrop, remove_wstate_cons]
      show jumpLoop n ⟨cl, [], bs, m + 1, br + 1, rt⟩ (wstate (cl.drop (m + 1))) = _
      rw [ih (m + 1) (br + 1) rt (by omega) (by omega)]
      congr 2
      omega

theorem diffLoop_exhausted (sig : IndexedSignature) (fuel : Nat) (st : DiffState)
    (h : ¬ st.w.has_frame) : diffLoop sig fuel st = st := by
  cases fuel with
  | zero => rfl
  | succ f => rw [diffLoop, if_neg h]

theorem diffStep_of_match_none (sig : IndexedSignature) (st : DiffState)
    (h : Delta.find_match sig st.hasher.digest st.w st.last = none) :
    diffStep sig st =
      { w := (st.w.move_forword).1,
        hasher :=
          (match (st.w.move_forword).2.2 with
            | some hd =>
              (match (st.w.move_forword).2.1 with
                | some t => st.hasher.remove t
                | none => st.hasher).insert hd
            | none =>
              match (st.w.move_forword).2.1 with
                | some t => st.hasher.remove t
                | none => st.hasher),
        ins_buffer := st.ins_buffer ++ (st.w.move_forword).2.1.toList,
        last := st.last, ops := st.ops } := by
  rw [diffStep, h]

theorem diffStep_of_match_some (sig : IndexedSignature) (st : DiffState) (bi : Nat)
    (h : Delta.find_match sig st.hasher.digest st.w st.last = some bi) :
    diffStep sig st =
      { w := (jumpLoop st.w.block_size st.w st.hasher).1,
        hasher := (jumpLoop st.w.block_size st.w st.hasher).2,
        ins_buffer := [],
        last := (bi : Int),
        ops :=
          if st.last + 1 < (bi : Int) then
            (if st.ins_buffer.isEmpty then st.ops
             else st.ops
               ++ [Operation.Insert st.ins_buffer (st.w.bytes_read - st.ins_buffer.length)])
            ++ [Operation.Remove st.w.bytes_read
              (((st.w.block_size : Int) * ((bi : Int) - st.last - 1)).toNat)]
          else
            (if st.ins_buffer.isEmpty then st.ops
             else st.ops
               ++ [Operation.Insert st.ins_buffer (st.w.bytes_read - st.ins_buffer.length)]) } := by
  rw [diffStep, h]

theorem Window.window_ext {p q : Window} (h1 : p.front = q.front) (h2 : p.back = q.back)
    (h3 : p.block_size = q.block_size) (h4 : p.offset = q.offset)
    (h5 : p.bytes_read = q.bytes_read) (h6 : p.rest = q.rest) : p = q := by
  cases p; cases q; simp_all

theorem DiffState.state_ext {p q : DiffState} (h1 : p.w = q.w) (h2 : p.hasher = q.hasher)
    (h3 : p.ins_buffer = q.ins_buffer) (h4 : p.last = q.last) (h5 : p.ops = q.ops) : p = q := by
  cases p; cases q; simp_all

theorem initState_eq (sig : IndexedSignature) (B : List Nat) :
    initState sig B =
      { w := ⟨B.take sig.block_size, (B.drop sig.block_size).take sig.block_size,
              sig.block_size, 0, 0, (B.drop sig.block_size).drop sig.block_size⟩,
        hasher := wstate (B.take sig.block_size),
        ins_buffer := [], last := -1, ops := [] } := by
  rw [initState, Window.new]
  apply DiffState.state_ext
  · rfl
  · show RollingHasher.new.update ((Window.new B sig.block_size).frame.1) = _
    rw [Window.new, Window.frame]
    simp only [List.drop_zero]
    rfl
  · rfl
  · rfl
  · rfl

theorem find_match_aligned (bs : Nat) (hbs : 1 ≤ bs) (A : List Nat)
    (hnd : ((chunksOf bs A).map weak_hash).Nodup) (j : Nat) (hj : j * bs < A.length)
    (w : Window) (last : Int)
    (hfr : w.frame.1 ++ w.frame.2 = chunkAt bs A j) (hlast : last < (j : Int)) :
    Delta.find_match (Signature.to_indexed bs A) (weak_hash (chunkAt bs A j)) w last
      = some j := by
  rw [find_match_of_lookup_some _ _ _ _ j _ (sigLookup_of_nodup bs hbs A hnd j hj)]
  rw [if_pos ⟨by rw [hfr], hlast⟩]

theorem scan_step0 (bs : Nat) (hbs : 1 ≤ bs) (A B : List Nat)
    (hnd : ((chunksOf bs A).map weak_hash).Nodup)
    (hA : bs ≤ A.length) (hB : bs ≤ B.length)
    (heq : chunkAt bs B 0 = chunkAt bs A 0) (f : Nat) :
    diffLoop (Signature.to_indexed bs A) (f + 1) (initState (Signature.to_indexed bs A) B)
      = diffLoop (Signature.to_indexed bs A) f (midState bs B 1) := by
  have hsigbs : (Signature.to_indexed bs A).block_size = bs := rfl
  have hfl : (B.take bs).length = bs := by rw [List.length_take]; omega
  have hch0 : chunkAt bs B 0 = B.take bs := by
    rw [chunkAt, Nat.zero_mul, List.drop_zero]
  rw [initState_eq, hsigbs, diffLoop]
  rw [if_pos (show Window.has_frame _ from by
    rw [Window.has_frame, Window.frame_size]
    simp only
    omega)]
  rw [diffStep_of_match_some _ _ 0 ?hfm]
  case hfm =>
    show Delta.find_match (Signature.to_indexed bs A) (wstate (B.take bs)).digest
      ⟨B.take bs, (B.drop bs).take bs, bs, 0, 0, (B.drop bs).drop bs⟩ (-1) = some 0
    rw [show (wstate (B.take bs)).digest = weak_hash (chunkAt bs A 0) from by
      rw [← heq, hch0]; rfl]
    apply find_match_aligned bs hbs A hnd 0 (by omega) _ _ ?frm (by simp)
    case frm =>
      rw [Window.frame]
      simp only [List.drop_zero, List.take_zero, List.append_nil]
      rw [← hch0]
      exact heq
  congr 1
  show (⟨(jumpLoop bs _ _).1, (jumpLoop bs _ _).2, [], ((0 : Nat) : Int),
      if (-1 : Int) + 1 < ((0 : Nat) : Int) then _ else _⟩ : DiffState) = midState bs B 1
  rw [if_neg (by simp)]
  have hw : wstate (B.take bs)
      = wstate ((B.take bs).drop 0 ++ ((B.drop bs).take bs).take 0) := by
    rw [List.drop_zero, List.take_zero, List.append_nil]
  rw [hw, jump_full bs (B.take bs) ((B.drop bs).take bs) hfl
    (by rw [List.length_take]; omega) bs 0 0 ((B.drop bs).drop bs) (by omega)]
  rw [midState]
  apply DiffState.state_ext
  · apply Window.window_ext
    · show B.take bs = chunkAt bs B (1 - 1)
      rw [show (1 : Nat) - 1 = 0 from rfl, hch0]
    · show (B.drop bs).take bs = chunkAt bs B 1
      rw [chunkAt, Nat.one_mul]
    · rfl
    · rfl
    · show 0 + bs = 1 * bs
      omega
    · show (B.drop bs).drop bs = B.drop ((1 + 1) * bs)
      rw [List.drop_drop]
      congr 1
      ring
  · show wstate ((B.drop bs).take bs) = wstate (chunkAt bs B 1)
    rw [chunkAt, Nat.one_mul]
  · rfl
  · show ((0 : Nat) : Int) = (1 : Int) - 1
    simp
  · rfl

theorem jumpLoop_rotate (n : Nat) (hn : 1 ≤ n) (w : Window) (h : RollingHasher)
    (hoff : w.front.length ≤ w.offset) (hfne : ¬ w.front.isEmpty)
    (hbne : ¬ w.back.isEmpty) (hfs : 0 < w.frame_size) :
    jumpLoop n w h =
      jumpLoop (n - 1) (w.read_next.stepw).1
        (match (w.read_next.stepw).2.2 with
          | some hd =>
            (match (w.read_next.stepw).2.1 with
              | some t => h.remove t
              | none => h).insert hd
          | none =>
            match (w.read_next.stepw).2.1 with
              | some t => h.remove t
              | none => h) := by
  obtain ⟨n2, rfl⟩ : ∃ n2, n = n2 + 1 := ⟨n - 1, by omega⟩
  rw [jumpLoop, if_neg (by intro ⟨h1, h2⟩; omega)]
  rw [Window.move_forword, if_neg hfne, if_pos hoff, if_neg hbne]
  rfl

theorem chunkAt_length_full (bs : Nat) (B : List Nat) (j : Nat)
    (h : (j + 1) * bs ≤ B.length) : (chunkAt bs B j).length = bs := by
  rw [chunkAt, List.length_take, List.length_drop]
  have h2 : (j + 1) * bs = j * bs + bs := by ring
  omega

theorem chunkAt_length_le (bs : Nat) (B : List Nat) (j : Nat) :
    (chunkAt bs B j).length ≤ bs := by
  rw [chunkAt, List.length_take]
  omega

theorem scan_stepJ (bs : Nat) (hbs : 1 ≤ bs) (A B : List Nat)
    (hnd : ((chunksOf bs A).map weak_hash).Nodup) (j : Nat) (hj : 1 ≤ j)
    (hBj : (j + 1) * bs ≤ B.length) (hjA : j * bs < A.length)
    (heq : chunkAt bs B j = chunkAt bs A j) (f : Nat) :
    diffLoop (Signature.to_indexed bs A) (f + 1) (midState bs B j)
      = diffLoop (Signature.to_indexed bs A) f (midState bs B (j + 1)) := by
  have hjbs : j * bs + bs = (j + 1) * bs := by ring
  have hfrontlen : (chunkAt bs B (j - 1)).length = bs := by
    apply chunkAt_length_full
    have : (j - 1 + 1) * bs = (j - 1) * bs + bs := by ring
    have h2 : (j - 1) * bs ≤ j * bs := Nat.mul_le_mul_right bs (by omega)
    omega
  have hbacklen : (chunkAt bs B j).length = bs := chunkAt_length_full bs B j hBj
  rw [midState, diffLoop]
  rw [if_pos (show Window.has_frame _ from by
    rw [Window.has_frame, Window.frame_size]
    simp only
    omega)]
  rw [diffStep_of_match_some _ _ j ?hfm]
  case hfm =>
    show Delta.find_match (Signature.to_indexed bs A) (wstate (chunkAt bs B j)).digest
      ⟨chunkAt bs B (j - 1), chunkAt bs B j, bs, bs, j * bs, B.drop ((j + 1) * bs)⟩
      ((j : Int) - 1) = some j
    rw [show (wstate (chunkAt bs B j)).digest = weak_hash (chunkAt bs A j) from by
      rw [← heq]; rfl]
    apply find_match_aligned bs hbs A hnd j hjA _ _ ?frm (by omega)
    case frm =>
      rw [Window.frame]
      simp only
      rw [show (chunkAt bs B (j - 1)).drop bs = [] from by
        have h3 := List.drop_length (chunkAt bs B (j - 1))
        rwa [hfrontlen] at h3]
      rw [List.nil_append, List.take_of_length_le (le_of_eq hbacklen), heq]
  congr 1
  rw [if_neg (show ¬(((j : Int) - 1) + 1 < ((j : Nat) : Int)) from by omega)]
  rw [show (⟨chunkAt bs B (j - 1), chunkAt bs B j, bs, bs, j * bs,
      B.drop ((j + 1) * bs)⟩ : Window).block_size = bs from rfl]
  rw [jumpLoop_rotate bs hbs _ _ (by simp only; omega)
    (by simp only [List.isEmpty_iff]; intro hc; rw [hc] at hfrontlen; simp at hfrontlen; omega)
    (by simp only [List.isEmpty_iff]; intro hc; rw [hc] at hbacklen; simp at hbacklen; omega)
    (by rw [Window.frame_size]; simp only; omega)]
  rw [Window.read_next, Window.stepw]
  simp only
  have hclne : chunkAt bs B j ≠ [] := by
    intro hc; rw [hc] at hbacklen; simp at hbacklen; omega
  have h0lt : 0 < (chunkAt bs B j).length := by omega
  have htl0 : (chunkAt bs B j)[(0 : Nat)]? = some ((chunkAt bs B j)[0]) :=
    List.getElem?_eq_getElem h0lt
  simp only [Nat.zero_add]
  have htl : (⟨chunkAt bs B j, (B.drop ((j + 1) * bs)).take bs, bs, 0, j * bs,
      (B.drop ((j + 1) * bs)).drop bs⟩ : Window).tail = some ((chunkAt bs B j)[0]) := by
    rw [Window.tail]
    exact htl0
  have hhd : (⟨chunkAt bs B j, (B.drop ((j + 1) * bs)).take bs, bs, 0, j * bs,
      (B.drop ((j + 1) * bs)).drop bs⟩ : Window).head
      = ((B.drop ((j + 1) * bs)).take bs)[(0 : Nat)]? := by
    rw [Window.head]
    simp only
    congr 1
    omega
  rw [htl, hhd]
  have hdrop1 : chunkAt bs B j = (chunkAt bs B j)[0] :: (chunkAt bs B j).drop 1 := by
    have h4 := List.drop_eq_getElem_cons h0lt
    rw [List.drop_zero] at h4
    exact h4
  have hrw : ∀ hv : RollingHasher, hv = wstate ((chunkAt bs B j).drop 1
        ++ ((B.drop ((j + 1) * bs)).take bs).take 1) →
      (⟨(jumpLoop (bs - 1) ⟨chunkAt bs B j, (B.drop ((j + 1) * bs)).take bs, bs, 1,
          j * bs + 1, (B.drop ((j + 1) * bs)).drop bs⟩ hv).1,
        (jumpLoop (bs - 1) ⟨chunkAt bs B j, (B.drop ((j + 1) * bs)).take bs, bs, 1,
          j * bs + 1, (B.drop ((j + 1) * bs)).drop bs⟩ hv).2,
        [], (j : Int),
        if ([] : List Nat).isEmpty = true then ([] : List Operation)
        else [] ++ [Operation.Insert [] (j * bs - ([] : List Nat).length)]⟩ : DiffState)
        = midState bs B (j + 1) := by
    intro hv hveq
    subst hveq
    rw [jump_full bs (chunkAt bs B j) ((B.drop ((j + 1) * bs)).take bs) hbacklen
      (by rw [List.length_take]; omega) (bs - 1) 1 (j * bs + 1) _ (by omega)]
    rw [midState]
    apply DiffState.state_ext
    · apply Window.window_ext
      · show chunkAt bs B j = chunkAt bs B (j + 1 - 1)
        congr 1
      · show (B.drop ((j + 1) * bs)).take bs = chunkAt bs B (j + 1)
        rw [chunkAt]
      · rfl
      · rfl
      · show j * bs + 1 + (bs - 1) = (j + 1) * bs
        omega
      · show (B.drop ((j + 1) * bs)).drop bs = B.drop ((j + 1 + 1) * bs)
        rw [List.drop_drop]
        congr 1
        ring
    · show wstate ((B.drop ((j + 1) * bs)).take bs) = wstate (chunkAt bs B (j + 1))
      rw [chunkAt]
    · rfl
    · show (j : Int) = ((j + 1 : Nat) : Int) - 1
      push_cast
      ring
    · simp
  cases hd0 : ((B.drop ((j + 1) * bs)).take bs)[(0 : Nat)]? with
  | some y =>
    apply hrw
    show ((wstate (chunkAt bs B j)).remove ((chunkAt bs B j)[0])).insert y = _
    rw [show (wstate (chunkAt bs B j)).remove ((chunkAt bs B j)[0])
        = wstate ((chunkAt bs B j).drop 1) from by
      rw [show wstate (chunkAt bs B j)
          = wstate ((chunkAt bs B j)[0] :: (chunkAt bs B j).drop 1) from by rw [← hdrop1]]
      exact remove_wstate_cons _ _]
    rw [show ((B.drop ((j + 1) * bs)).take bs).take 1
        = ((B.drop ((j + 1) * bs)).take bs).take 0 ++ [y] from by
      rw [List.take_succ, hd0]
      rfl]
    rw [List.take_zero, List.nil_append, ← wstate_append_one]
  | none =>
    apply hrw
    show (wstate (chunkAt bs B j)).remove ((chunkAt bs B j)[0]) = _
    have hml : ((B.drop ((j + 1) * bs)).take bs).length ≤ 0 := by
      by_contra hcon
      rw [List.getElem?_eq_getElem (Nat.lt_of_not_le hcon)] at hd0
      cases hd0
    rw [show ((B.drop ((j + 1) * bs)).take bs).take 1 = [] from by
      rw [List.take_of_length_le (by omega)]
      exact List.length_eq_zero.mp (by omega)]
    rw [List.append_nil]
    rw [show wstate (chunkAt bs B j)
        = wstate ((chunkAt bs B j)[0] :: (chunkAt bs B j).drop 1) from by rw [← hdrop1]]
    exact remove_wstate_cons _ _

theorem scan_full (bs : Nat) (hbs : 1 ≤ bs) (A B : List Nat)
    (hnd : ((chunksOf bs A).map weak_hash).Nodup) :
    ∀ (M : Nat), 1 ≤ M → M * bs ≤ A.length → M * bs ≤ B.length →
    (∀ i, i < M → chunkAt bs B i = chunkAt bs A i) →
    ∀ f, diffLoop (Signature.to_indexed bs A) (M + f) (initState (Signature.to_indexed bs A) B)
      = diffLoop (Signature.to_indexed bs A) f (midState bs B M) := by
  intro M
  induction M with
  | zero => intro h; omega
  | succ M2 ih =>
    intro _ hMA hMB hagree f
    by_cases hM2 : M2 = 0
    · subst hM2
      rw [show 1 * bs = bs from by ring] at hMA hMB
      rw [show 0 + 1 + f = f + 1 from by omega]
      exact scan_step0 bs hbs A B hnd hMA hMB (hagree 0 (by omega)) f
    · have h1M : 1 ≤ M2 := by omega
      have hstep : M2 * bs ≤ (M2 + 1) * bs := by
        have : (M2 + 1) * bs = M2 * bs + bs := by ring
        omega
    
      rw [show M2 + 1 + f = M2 + (f + 1) from by omega]
      rw [ih h1M (by omega) (by omega) (fun i hi => hagree i (by omega)) (f + 1)]
      apply scan_stepJ bs hbs A B hnd M2 h1M hMB ?hjA (hagree M2 (by omega)) f
      case hjA =>
        have h2 : (M2 + 1) * bs = M2 * bs + bs := by ring
        omega

theorem find_match_bounded (sig : IndexedSignature) (key : Nat) (w : Window) (last : Int)
    (hidx : ∀ (i : Nat) (blk : BlockHash), sigLookup sig key = some (i, blk) → (i : Int) ≤ last) :
    Delta.find_match sig key w last = none := by
  cases hl : sigLookup sig key with
  | none => exact find_match_of_lookup_none sig key w last hl
  | some p =>
    obtain ⟨i, blk⟩ := p
    rw [find_match_of_lookup_some sig key w last i blk hl]
    rw [if_neg]
    intro ⟨h1, h2⟩
    exact absurd (hidx i blk hl) (by omega)

theorem move_analysis (w : Window) (hwf : WinWF w) (hhf : 0 < w.frame_size) :
    WinWF (w.move_forword).1 ∧
    (w.move_forword).1.block_size = w.block_size ∧
    winMeasure (w.move_forword).1 + 1 = winMeasure w ∧
    (w.move_forword).1.bytes_read = w.bytes_read + 1 ∧
    ∃ t, (w.move_forword).2.1 = some t ∧ t :: remBytes (w.move_forword).1 = remBytes w := by
  obtain ⟨hbs, hfb, hbb, hob, hshort, hfshort⟩ := hwf
  rw [Window.frame_size] at hhf
  have hfne : ¬ w.front.isEmpty := by
    rw [List.isEmpty_iff]
    intro hc
    have h0 : w.front.length = 0 := by rw [hc]; rfl
    have := hfshort (by omega)
    rw [this.1] at hhf
    simp at hhf
    omega
  rw [Window.move_forword, if_neg hfne]
  by_cases hoff : w.front.length ≤ w.offset
  · have hoeq : w.offset = w.front.length := by omega
    have hbne : ¬ w.back.isEmpty := by
      rw [List.isEmpty_iff]
      intro hc
      have h0 : w.back.length = 0 := by rw [hc]; rfl
      omega
    rw [if_pos hoff, if_neg hbne]
    have hbne2 : w.back ≠ [] := fun hc => hbne (by rw [hc]; rfl)
    have hbpos : 0 < w.back.length := List.length_pos.mpr hbne2
    rw [Window.read_next, Window.stepw]
    refine ⟨?_, rfl, ?_, rfl, ?_⟩
    · refine ⟨hbs, by simpa using hbb, ?_, by simpa using hbpos, ?_, ?_⟩
      · simp only [List.length_take]
        omega
      · intro hlt
        simp only [List.length_take] at hlt
        have h2 : w.rest.length < w.block_size := by omega
        simp only
        rw [List.drop_eq_nil_iff]
        omega
      · intro hlt
        simp only at hlt
        have h2 := hshort hlt
        simp only [h2]
        constructor
        · simp
        · simp
    · rw [winMeasure, winMeasure, Window.frame_size, Window.frame_size]
      simp only [List.length_take, List.length_drop]
      omega
    · have hback : w.back = w.back[0] :: w.back.drop (0 + 1) := by
        have h5 := List.drop_eq_getElem_cons hbpos
        rwa [List.drop_zero] at h5
      refine ⟨w.back[0], ?_, ?_⟩
      · show w.back[(0 : Nat)]? = _
        rw [List.getElem?_eq_getElem hbpos]
      · rw [remBytes, remBytes]
        simp only
        rw [hoeq, List.drop_length, List.nil_append]
        rw [List.append_assoc, List.take_append_drop]
        rw [← List.cons_append, ← hback]
  · rw [if_neg hoff]
    have holt : w.offset < w.front.length := by omega
    rw [Window.stepw]
    refine ⟨⟨hbs, hfb, hbb, by simp only; omega, hshort, hfshort⟩, rfl, ?_, rfl, ?_⟩
    · rw [winMeasure, winMeasure, Window.frame_size, Window.frame_size]
      simp only
      omega
    · refine ⟨w.front[w.offset], ?_, ?_⟩
      · show w.front[w.offset]? = _
        rw [List.getElem?_eq_getElem holt]
      · rw [remBytes, remBytes]
        simp only
        rw [← List.cons_append, ← List.cons_append]
        congr 2
        exact (List.drop_eq_getElem_cons holt).symm

theorem diffStep_none_fields (sig : IndexedSignature) (st : DiffState)
    (h : Delta.find_match sig st.hasher.digest st.w st.last = none) :
    (diffStep sig st).w = (st.w.move_forword).1 ∧
    (diffStep sig st).ins_buffer = st.ins_buffer ++ (st.w.move_forword).2.1.toList ∧
    (diffStep sig st).last = st.last ∧ (diffStep sig st).ops = st.ops := by
  rw [diffStep_of_match_none sig st h]
  exact ⟨rfl, rfl, rfl, rfl⟩

theorem slide_all (sig : IndexedSignature) (L : Int)
    (hidx : ∀ (key : Nat) (i : Nat) (blk : BlockHash),
        sigLookup sig key = some (i, blk) → (i : Int) ≤ L) :
    ∀ (n : Nat) (st : DiffState), WinWF st.w → st.last = L → winMeasure st.w = n →
    ∀ f : Nat,
      (diffLoop sig (n + f) st).ins_buffer = st.ins_buffer ++ remBytes st.w ∧
      (diffLoop sig (n + f) st).w.bytes_read = st.w.bytes_read + n ∧
      (diffLoop sig (n + f) st).last = st.last ∧
      (diffLoop sig (n + f) st).ops = st.ops := by
  intro n
  induction n with
  | zero =>
    intro st hwf hlast hms f
    obtain ⟨hbs, hfb, hbb, hob, hshort, hfshort⟩ := hwf
    rw [winMeasure] at hms
    have hfs : st.w.frame_size = 0 := by omega
    have hrest : st.w.rest = [] := List.length_eq_zero.mp (by omega)
    rw [diffLoop_exhausted sig (0 + f) st (by rw [Window.has_frame]; omega)]
    rw [Window.frame_size] at hfs
    have hback : st.w.back = [] := List.length_eq_zero.mp (by omega)
    have hoeq : st.w.offset = st.w.front.length := by omega
    rw [remBytes, hback, hrest, hoeq, List.drop_length]
    simp
  | succ n ih =>
    intro st hwf hlast hms f
    have hfs : 0 < st.w.frame_size := by
      by_contra hc
      have hc2 : st.w.frame_size = 0 := by omega
      obtain ⟨hbs, hfb, hbb, hob, hshort, hfshort⟩ := hwf
      have hc3 := hc2
      rw [Window.frame_size] at hc3
      have hrest : st.w.rest = [] := hshort (by omega)
      rw [winMeasure, hc2, hrest] at hms
      simp at hms
    have hnone : Delta.find_match sig st.hasher.digest st.w st.last = none := by
      apply find_match_bounded
      intro i blk hl
      rw [hlast]
      exact hidx _ i blk hl
    obtain ⟨hwf2, hbs2, hmeas2, hbr2, t, ht, hrem⟩ := move_analysis st.w hwf hfs
    rw [show n + 1 + f = (n + f) + 1 from by omega, diffLoop]
    rw [if_pos (show st.w.has_frame from by rw [Window.has_frame]; omega)]
    obtain ⟨hw2, hins2, hlast2, hops2⟩ := diffStep_none_fields sig st hnone
    have hms2 : winMeasure (diffStep sig st).w = n := by
      rw [hw2]
      omega
    obtain ⟨i1, i2, i3, i4⟩ := ih (diffStep sig st) (by rw [hw2]; exact hwf2)
      (by rw [hlast2]; exact hlast) hms2 f
    refine ⟨?_, ?_, ?_, ?_⟩
    · rw [i1, hins2, hw2, ht]
      rw [show (some t).toList = [t] from rfl]
      rw [List.append_assoc, List.singleton_append, hrem]
    · rw [i2, hw2, hbr2]
      omega
    · rw [i3, hlast2]
    · rw [i4, hops2]

theorem WinWF_new (B : List Nat) (bs : Nat) (hbs : 1 ≤ bs) : WinWF (Window.new B bs) := by
  rw [Window.new]
  refine ⟨hbs, ?_, ?_, ?_, ?_, ?_⟩
  · simp only [List.length_take]
    omega
  · simp only [List.length_take]
    omega
  · simp
  · intro hlt
    simp only [List.length_take, List.length_drop] at hlt ⊢
    rw [List.drop_eq_nil_iff]
    simp only [List.length_drop]
    omega
  · intro hlt
    simp only [List.length_take] at hlt
    have hsh : B.length < bs := by omega
    constructor
    · simp only
      rw [List.drop_eq_nil_iff.mpr (by omega), List.take_nil]
    · simp only
      rw [List.drop_eq_nil_iff]
      simp only [List.length_drop]
      omega

theorem WinWF_mid (B : List Nat) (bs : Nat) (hbs : 1 ≤ bs) (j : Nat) (hj : 1 ≤ j)
    (hfull : j * bs ≤ B.length) : WinWF (midState bs B j).w := by
  have hfl : (chunkAt bs B (j - 1)).length = bs := by
    apply chunkAt_length_full
    have h2 : (j - 1 + 1) * bs = (j - 1) * bs + bs := by ring
    have h3 : (j - 1) * bs + bs = j * bs := by
      obtain ⟨j2, rfl⟩ : ∃ j2, j = j2 + 1 := ⟨j - 1, by omega⟩
      simp only [Nat.add_sub_cancel]
      ring
    omega
  rw [midState]
  refine ⟨hbs, ?_, ?_, ?_, ?_, ?_⟩
  · simp only
    omega
  · simp only
    exact chunkAt_length_le bs B j
  · simp only
    omega
  · intro hlt
    simp only [chunkAt, List.length_take, List.length_drop] at hlt ⊢
    rw [List.drop_eq_nil_iff]
    have h2 : (j + 1) * bs = j * bs + bs := by ring
    omega
  · intro hlt
    simp only at hlt
    omega

theorem scan_short0 (bs : Nat) (hbs : 1 ≤ bs) (A : List Nat)
    (hnd : ((chunksOf bs A).map weak_hash).Nodup) (hlt : A.length < bs) (hne : A ≠ [])
    (f : Nat) :
    diffLoop (Signature.to_indexed bs A) (f + 1) (initState (Signature.to_indexed bs A) A)
      = ⟨⟨A, [], bs, A.length, A.length, []⟩, wstate [], [], 0, []⟩ := by
  have hpos : 0 < A.length := List.length_pos.mpr hne
  have htk : A.take bs = A := List.take_of_length_le (by omega)
  have hdp : A.drop bs = [] := List.drop_eq_nil_iff.mpr (by omega)
  have hch0 : chunkAt bs A 0 = A := by
    rw [chunkAt, Nat.zero_mul, List.drop_zero, htk]
  have hsigbs : (Signature.to_indexed bs A).block_size = bs := rfl
  rw [initState_eq, hsigbs, htk, hdp]
  simp only [List.take_nil, List.drop_nil]
  rw [diffLoop]
  rw [if_pos (show Window.has_frame _ from by
    rw [Window.has_frame, Window.frame_size]
    simp only [List.length_nil]
    omega)]
  rw [diffStep_of_match_some _ _ 0 ?hfm]
  case hfm =>
    show Delta.find_match (Signature.to_indexed bs A) (wstate A).digest
      ⟨A, [], bs, 0, 0, []⟩ (-1) = some 0
    rw [show (wstate A).digest = weak_hash (chunkAt bs A 0) from by rw [hch0]; rfl]
    apply find_match_aligned bs hbs A hnd 0 (by omega) _ _ ?frm (by simp)
    case frm =>
      rw [Window.frame]
      simp only [List.drop_zero, List.take_zero, List.take_nil, List.append_nil]
      exact hch0.symm
  rw [if_neg (show ¬((-1 : Int) + 1 < ((0 : Nat) : Int)) from by simp)]
  rw [show (⟨A, [], bs, 0, 0, []⟩ : Window).block_size = bs from rfl]
  rw [show wstate A = wstate (A.drop 0) from by rw [List.drop_zero]]
  rw [jump_short bs A bs 0 0 [] (by omega) (by omega)]
  rw [diffLoop_exhausted _ f _ (by
    rw [Window.has_frame, Window.frame_size]
    simp only [List.length_nil]
    omega)]
  apply DiffState.state_ext
  · apply Window.window_ext <;> simp
  · rfl
  · rfl
  · simp
  · rfl

theorem scan_shortJ (bs : Nat) (hbs : 1 ≤ bs) (A : List Nat)
    (hnd : ((chunksOf bs A).map weak_hash).Nodup) (j : Nat) (hj : 1 ≤ j)
    (hfull : j * bs < A.length) (hshort : A.length < (j + 1) * bs) (f : Nat) :
    diffLoop (Signature.to_indexed bs A) (f + 1) (midState bs A j)
      = ⟨⟨chunkAt bs A j, [], bs, A.length - j * bs, A.length, []⟩, wstate [], [], (j : Int), []⟩ := by
  have hjbs : (j + 1) * bs = j * bs + bs := by ring
  have hr : (chunkAt bs A j).length = A.length - j * bs := by
    rw [chunkAt, List.length_take, List.length_drop]
    omega
  have hrpos : 0 < (chunkAt bs A j).length := by omega
  have hfrontlen : (chunkAt bs A (j - 1)).length = bs := by
    apply chunkAt_length_full
    obtain ⟨j2, rfl⟩ : ∃ j2, j = j2 + 1 := ⟨j - 1, by omega⟩
    simp only [Nat.add_sub_cancel]
    omega
  have hrest : A.drop ((j + 1) * bs) = [] := List.drop_eq_nil_iff.mpr (by omega)
  rw [midState, hrest, diffLoop]
  rw [if_pos (show Window.has_frame _ from by
    rw [Window.has_frame, Window.frame_size]
    simp only
    omega)]
  rw [diffStep_of_match_some _ _ j ?hfm]
  case hfm =>
    show Delta.find_match (Signature.to_indexed bs A) (wstate (chunkAt bs A j)).digest
      ⟨chunkAt bs A (j - 1), chunkAt bs A j, bs, bs, j * bs, []⟩ ((j : Int) - 1) = some j
    rw [show (wstate (chunkAt bs A j)).digest = weak_hash (chunkAt bs A j) from rfl]
    apply find_match_aligned bs hbs A hnd j hfull _ _ ?frm (by omega)
    case frm =>
      rw [Window.frame]
      simp only
      rw [show (chunkAt bs A (j - 1)).drop bs = [] from by
        have h3 := List.drop_length (chunkAt bs A (j - 1))
        rwa [hfrontlen] at h3]
      rw [List.nil_append, List.take_of_length_le (by omega)]
  rw [if_neg (show ¬(((j : Int) - 1) + 1 < ((j : Nat) : Int)) from by omega)]
  rw [show (⟨chunkAt bs A (j - 1), chunkAt bs A j, bs, bs, j * bs, []⟩ : Window).block_size
    = bs from rfl]
  rw [jumpLoop_rotate bs hbs _ _ (by simp only; omega)
    (by simp only [List.isEmpty_iff]; intro hc; rw [hc] at hfrontlen; simp at hfrontlen; omega)
    (by simp only [List.isEmpty_iff]; intro hc; rw [hc] at hrpos; simp at hrpos)
    (by rw [Window.frame_size]; simp only; omega)]
  rw [Window.read_next, Window.stepw]
  simp only [List.take_nil, List.drop_nil, Nat.zero_add]
  have htl : (⟨chunkAt bs A j, [], bs, 0, j * bs, []⟩ : Window).tail
      = some ((chunkAt bs A j)[0]) := by
    rw [Window.tail]
    exact List.getElem?_eq_getElem hrpos
  have hhd : (⟨chunkAt bs A j, [], bs, 0, j * bs, []⟩ : Window).head = none := by
    rw [Window.head]
    simp
  rw [htl, hhd]
  have hdrop1 : chunkAt bs A j = (chunkAt bs A j)[0] :: (chunkAt bs A j).drop 1 := by
    have h4 := List.drop_eq_getElem_cons hrpos
    rwa [List.drop_zero] at h4
  have hrw : ∀ hv : RollingHasher, hv = wstate ((chunkAt bs A j).drop 1) →
      diffLoop (Signature.to_indexed bs A) f
        (⟨(jumpLoop (bs - 1) ⟨chunkAt bs A j, [], bs, 1, j * bs + 1, []⟩ hv).1,
          (jumpLoop (bs - 1) ⟨chunkAt bs A j, [], bs, 1, j * bs + 1, []⟩ hv).2,
          [], ((j : Nat) : Int),
          if ([] : List Nat).isEmpty = true then ([] : List Operation)
          else [] ++ [Operation.Insert [] (j * bs - ([] : List Nat).length)]⟩ : DiffState)
        = ⟨⟨chunkAt bs A j, [], bs, A.length - j * bs, A.length, []⟩,
            wstate [], [], (j : Int), []⟩ := by
    intro hv hveq
    subst hveq
    rw [jump_short bs (chunkAt bs A j) (bs - 1) 1 (j * bs + 1) [] (by omega) (by omega)]
    rw [diffLoop_exhausted _ f _ (by
      rw [Window.has_frame, Window.frame_size]
      simp only [List.length_nil]
      omega)]
    apply DiffState.state_ext
    · apply Window.window_ext
      · rfl
      · rfl
      · rfl
      · simp only
        omega
      · simp only
        omega
      · rfl
    · rfl
    · rfl
    · simp
    · rfl
  apply hrw
  show (wstate (chunkAt bs A j)).remove ((chunkAt bs A j)[0]) = _
  rw [show wstate (chunkAt bs A j)
      = wstate ((chunkAt bs A j)[0] :: (chunkAt bs A j).drop 1) from by rw [← hdrop1]]
  exact remove_wstate_cons _ _

theorem diffCore_of_loop (sig : IndexedSignature) (buf : List Nat) (st : DiffState)
    (h : diffLoop sig (buf.length + 1) (initState sig buf) = st)
    (hins : st.ins_buffer = [])
    (hlast : ¬ st.last + 1
        < ((((sig.original_buffer_len + sig.block_size - 1) / sig.block_size : Nat)) : Int)) :
    Delta.diffCore sig buf = st.ops := by
  rw [Delta.diffCore, h]
  show (if st.last + 1
        < ((((sig.original_buffer_len + sig.block_size - 1) / sig.block_size : Nat)) : Int) then
      (if st.ins_buffer.isEmpty then st.ops
       else st.ops ++ [Operation.Insert st.ins_buffer (st.w.bytes_read - st.ins_buffer.length)])
      ++ [Operation.Remove st.w.bytes_read
        (((sig.original_buffer_len : Int) - (st.last + 1) * (sig.block_size : Int)).toNat)]
    else
      (if st.ins_buffer.isEmpty then st.ops
       else st.ops ++ [Operation.Insert st.ins_buffer (st.w.bytes_read - st.ins_buffer.length)]))
    = st.ops
  rw [if_neg hlast, if_pos (show st.ins_buffer.isEmpty = true from by rw [hins]; rfl)]

theorem diffCore_self (bs : Nat) (hbs : 1 ≤ bs) (A : List Nat)
    (hnd : ((chunksOf bs A).map weak_hash).Nodup) :
    Delta.diffCore (Signature.to_indexed bs A) A = [] := by
  have hobl : (Signature.to_indexed bs A).original_buffer_len = A.length := rfl
  have hsbs : (Signature.to_indexed bs A).block_size = bs := rfl
  have hmod := Nat.div_add_mod A.length bs
  have hrlt : A.length % bs < bs := Nat.mod_lt _ (by omega)
  by_cases hz : A.length % bs = 0
  · by_cases hA0 : A = []
    · subst hA0
      have hnf : ¬ (initState (Signature.to_indexed bs []) []).w.has_frame := by
        rw [initState_eq, Window.has_frame, Window.frame_size]
        simp
      have hloop := diffLoop_exhausted (Signature.to_indexed bs [])
        (List.length ([] : List Nat) + 1) _ hnf
      have hlast : ¬ (initState (Signature.to_indexed bs []) []).last + 1
          < (((((Signature.to_indexed bs []).original_buffer_len
              + (Signature.to_indexed bs []).block_size - 1)
              / (Signature.to_indexed bs []).block_size : Nat)) : Int) := by
        rw [show (Signature.to_indexed bs []).original_buffer_len = 0 from rfl,
          show (Signature.to_indexed bs []).block_size = bs from rfl]
        rw [show (initState (Signature.to_indexed bs []) []).last = -1 from rfl]
        rw [Nat.div_eq_of_lt (by omega)]
        simp
      rw [diffCore_of_loop _ _ _ hloop rfl hlast]
      rfl
    · have hM1 : 1 ≤ A.length / bs := by
        have hpos : 0 < A.length := List.length_pos.mpr hA0
        rcases Nat.eq_zero_or_pos (A.length / bs) with h0 | h1
        · rw [h0] at hmod
          omega
        · exact h1
      have hlen : (A.length / bs) * bs = A.length := by
        have hc : (A.length / bs) * bs = bs * (A.length / bs) := Nat.mul_comm _ _
        omega
      have hle : A.length / bs ≤ A.length := by
        have h1 := Nat.mul_le_mul_left (A.length / bs) hbs
        have h2 : (A.length / bs) * 1 = A.length / bs := by ring
        omega
      have hloop : diffLoop (Signature.to_indexed bs A) (A.length + 1)
          (initState (Signature.to_indexed bs A) A) = midState bs A (A.length / bs) := by
        rw [show A.length + 1 = (A.length / bs) + (A.length + 1 - A.length / bs) from by omega]
        rw [scan_full bs hbs A A hnd (A.length / bs) hM1 (by omega) (by omega) (fun i _ => rfl) _]
        apply diffLoop_exhausted
        rw [Window.has_frame, Window.frame_size]
        show ¬ 0 < (chunkAt bs A (A.length / bs - 1)).length
            + (chunkAt bs A (A.length / bs)).length - bs
        have hfr : (chunkAt bs A (A.length / bs - 1)).length = bs := by
          apply chunkAt_length_full
          obtain ⟨M2, hM2⟩ : ∃ M2, A.length / bs = M2 + 1 := ⟨A.length / bs - 1, by omega⟩
          rw [hM2]
          simp only [Nat.add_sub_cancel]
          rw [hM2] at hlen
          omega
        have hbk : (chunkAt bs A (A.length / bs)).length = 0 := by
          rw [chunkAt, show A.drop ((A.length / bs) * bs) = []
            from List.drop_eq_nil_iff.mpr (by omega)]
          simp
        omega
      have hlast : ¬ (midState bs A (A.length / bs)).last + 1
          < (((((Signature.to_indexed bs A).original_buffer_len
              + (Signature.to_indexed bs A).block_size - 1)
              / (Signature.to_indexed bs A).block_size : Nat)) : Int) := by
        rw [hobl, hsbs]
        rw [show (midState bs A (A.length / bs)).last = ((A.length / bs : Nat) : Int) - 1 from rfl]
        rw [show (A.length + bs - 1) / bs = A.length / bs from
          Nat.div_eq_of_lt_le (by omega)
            (by
              have h1 : (A.length / bs + 1) * bs = (A.length / bs) * bs + bs := by ring
              omega)]
        omega
      rw [diffCore_of_loop _ _ _ hloop rfl hlast]
      rfl
  · have hne : A ≠ [] := by
      intro h0
      rw [h0] at hz
      simp at hz
    by_cases hM : A.length / bs = 0
    · have hlt : A.length < bs := by
        rw [hM] at hmod
        omega
      have hloop := scan_short0 bs hbs A hnd hlt hne A.length
      have hlast : ¬ (⟨⟨A, [], bs, A.length, A.length, []⟩,
            wstate [], [], 0, []⟩ : DiffState).last + 1
          < (((((Signature.to_indexed bs A).original_buffer_len
              + (Signature.to_indexed bs A).block_size - 1)
              / (Signature.to_indexed bs A).block_size : Nat)) : Int) := by
        rw [hobl, hsbs]
        rw [show (⟨⟨A, [], bs, A.length, A.length, []⟩,
            wstate [], [], 0, []⟩ : DiffState).last = 0 from rfl]
        rw [show (A.length + bs - 1) / bs = 1 from
          Nat.div_eq_of_lt_le
            (by
              have hpos : 0 < A.length := List.length_pos.mpr hne
              omega)
            (by
              have h1 : (1 + 1) * bs = bs + bs := by ring
              omega)]
        simp
      rw [diffCore_of_loop _ _ _ hloop rfl hlast]
    · have hM1 : 1 ≤ A.length / bs := Nat.pos_of_ne_zero hM
      have hc : (A.length / bs) * bs = bs * (A.length / bs) := Nat.mul_comm _ _
      have hfull : (A.length / bs) * bs < A.length := by omega
      have hshort : A.length < (A.length / bs + 1) * bs := by
        have h1 : (A.length / bs + 1) * bs = (A.length / bs) * bs + bs := by ring
        omega
      have hloop : diffLoop (Signature.to_indexed bs A) (A.length + 1)
          (initState (Signature.to_indexed bs A) A)
          = ⟨⟨chunkAt bs A (A.length / bs), [], bs, A.length - (A.length / bs) * bs, A.length, []⟩,
              wstate [], [], ((A.length / bs : Nat) : Int), []⟩ := by
        rw [show A.length + 1 = (A.length / bs) + (A.length - A.length / bs + 1) from by
          have h1 := Nat.mul_le_mul_left (A.length / bs) hbs
          have h2 : (A.length / bs) * 1 = A.length / bs := by ring
          omega]
        rw [scan_full bs hbs A A hnd (A.length / bs) hM1 (by omega) (by omega) (fun i _ => rfl) _]
        exact scan_shortJ bs hbs A hnd (A.length / bs) hM1 hfull hshort (A.length - A.length / bs)
      have hlast : ¬ (⟨⟨chunkAt bs A (A.length / bs), [], bs,
            A.length - (A.length / bs) * bs, A.length, []⟩,
            wstate [], [], ((A.length / bs : Nat) : Int), []⟩ : DiffState).last + 1
          < (((((Signature.to_indexed bs A).original_buffer_len
              + (Signature.to_indexed bs A).block_size - 1)
              / (Signature.to_indexed bs A).block_size : Nat)) : Int) := by
        rw [hobl, hsbs]
        rw [show (⟨⟨chunkAt bs A (A.length / bs), [], bs,
            A.length - (A.length / bs) * bs, A.length, []⟩,
            wstate [], [], ((A.length / bs : Nat) : Int), []⟩ : DiffState).last
          = ((A.length / bs : Nat) : Int) from rfl]
        rw [show (A.length + bs - 1) / bs = A.length / bs + 1 from
          Nat.div_eq_of_lt_le
            (by
              have h1 : (A.length / bs + 1) * bs = (A.length / bs) * bs + bs := by ring
              omega)
            (by
              have h1 : (A.length / bs + 1 + 1) * bs = (A.length / bs) * bs + bs + bs := by ring
              omega)]
        omega
      rw [diffCore_of_loop _ _ _ hloop rfl hlast]

theorem diffCore_post (sig : IndexedSignature) (buf : List Nat) (st : DiffState)
    (h : diffLoop sig (buf.length + 1) (initState sig buf) = st) :
    Delta.diffCore sig buf =
      (if st.ins_buffer.isEmpty then st.ops
       else st.ops ++ [Operation.Insert st.ins_buffer (st.w.bytes_read - st.ins_buffer.length)])
      ++ (if st.last + 1
            < ((((sig.original_buffer_len + sig.block_size - 1) / sig.block_size : Nat)) : Int)
          then [Operation.Remove st.w.bytes_read
            (((sig.original_buffer_len : Int) - (st.last + 1) * (sig.block_size : Int)).toNat)]
          else []) := by
  rw [Delta.diffCore, h]
  show (if st.last + 1
        < ((((sig.original_buffer_len + sig.block_size - 1) / sig.block_size : Nat)) : Int) then
      (if st.ins_buffer.isEmpty then st.ops
       else st.ops ++ [Operation.Insert st.ins_buffer (st.w.bytes_read - st.ins_buffer.length)])
      ++ [Operation.Remove st.w.bytes_read
        (((sig.original_buffer_len : Int) - (st.last + 1) * (sig.block_size : Int)).toNat)]
    else
      (if st.ins_buffer.isEmpty then st.ops
       else st.ops ++ [Operation.Insert st.ins_buffer (st.w.bytes_read - st.ins_buffer.length)]))
    = _
  by_cases hc : st.last + 1
      < ((((sig.original_buffer_len + sig.block_size - 1) / sig.block_size : Nat)) : Int)
  · rw [if_pos hc, if_pos hc]
  · rw [if_neg hc, if_neg hc, List.append_nil]

/-- C2 (amended): `diff(A, A)` is the empty script provided the derived
block size is nonzero (see C1) and the blocks of `A` have pairwise distinct
weak hashes; `claim_C2_counterexample` shows the unconditional claim false. -/
theorem claim_C2 (A : List Nat)
    (hbs0 : calculate_block_size A.length ≠ 0)
    (hnd : ((chunksOf (calculate_block_size A.length) A).map weak_hash).Nodup) :
    rsdiff_diff A A = some [] := by
  rw [rsdiff_diff, Nat.max_self, rsdiff_diff_with_block_size, if_neg hbs0]
  rw [diffCore_self _ (Nat.pos_of_ne_zero hbs0) A hnd]

theorem claim_C2_witness :
    calculate_block_size (List.length [1, 2, 3]) ≠ 0 ∧
    ((chunksOf (calculate_block_size (List.length [1, 2, 3])) [1, 2, 3]).map weak_hash).Nodup ∧
    rsdiff_diff [1, 2, 3] [1, 2, 3] = some [] :=
  ⟨by decide, by decide, claim_C2 [1, 2, 3] (by decide) (by decide)⟩

set_option maxRecDepth 40000 in
theorem claim_C2_counterexample :
    rsdiff_diff cexA2 cexA2
      = some [Operation.Insert ([5, 16] ++ List.replicate 30 0) 0, Operation.Remove 32 32]
    ∧ ¬ noopScript [Operation.Insert ([5, 16] ++ List.replicate 30 0) 0,
        Operation.Remove 32 32] := by
  constructor
  · decide
  · decide

theorem chunkAt_append_left (bs : Nat) (A T : List Nat) (i : Nat)
    (h : (i + 1) * bs ≤ A.length) : chunkAt bs (A ++ T) i = chunkAt bs A i := by
  have h1 : (i + 1) * bs = i * bs + bs := by ring
  rw [chunkAt, chunkAt, List.drop_append_of_le_length (by omega)]
  rw [List.take_append_of_le_length (by simp only [List.length_drop]; omega)]

theorem chunkAt_take (bs : Nat) (A : List Nat) (n i : Nat)
    (h : (i + 1) * bs ≤ n) : chunkAt bs (A.take n) i = chunkAt bs A i := by
  have h1 : (i + 1) * bs = i * bs + bs := by ring
  rw [chunkAt, chunkAt, List.drop_take, List.take_take, Nat.min_eq_left (by omega)]

/-- C5 (amended): when `B = A ++ T` with `|A|` a multiple of the block size,
`T` nonempty, and the blocks of `A` weak-hash-distinct, the script is exactly
`[Insert T |A|]`; `claim_C5_counterexample` shows duplicate blocks break the
unconditional claim. -/
theorem claim_C5 (bs : Nat) (hbs : 1 ≤ bs) (A T : List Nat) (hT : T ≠ [])
    (hmul : A.length % bs = 0)
    (hnd : ((chunksOf bs A).map weak_hash).Nodup) :
    rsdiff_diff_with_block_size bs A (A ++ T)
      = some [Operation.Insert T A.length] := by
  rw [rsdiff_diff_with_block_size, if_neg (by omega)]
  have hTE : T.isEmpty = false := by
    cases T with
    | nil => exact absurd rfl hT
    | cons a t => rfl
  have hTpos : 0 < T.length := List.length_pos.mpr hT
  have hmod := Nat.div_add_mod A.length bs
  by_cases hM0 : A.length / bs = 0
  · have hA : A = [] := by
      apply List.eq_nil_of_length_eq_zero
      rw [hM0] at hmod
      omega
    subst hA
    rw [List.nil_append]
    have hidx : ∀ (key i : Nat) (blk : BlockHash),
        sigLookup (Signature.to_indexed bs []) key = some (i, blk) → (i : Int) ≤ (-1 : Int) := by
      intro key i blk h
      have h2 := sigLookup_idx_lt bs hbs [] key i blk h
      simp only [List.length_nil] at h2
      omega
    have hinit : WinWF (initState (Signature.to_indexed bs []) T).w :=
      WinWF_new T bs hbs
    have hlast : (initState (Signature.to_indexed bs []) T).last = (-1 : Int) := rfl
    have hmeas : winMeasure (initState (Signature.to_indexed bs []) T).w = T.length := by
      rw [winMeasure, Window.frame_size]
      show (T.take bs).length + ((T.drop bs).take bs).length - 0
        + ((T.drop bs).drop bs).length = T.length
      simp only [List.length_take, List.length_drop]
      omega
    have hslide := slide_all (Signature.to_indexed bs []) (-1) hidx T.length
      (initState (Signature.to_indexed bs []) T) hinit hlast hmeas 1
    rw [diffCore_post (Signature.to_indexed bs []) T _ rfl]
    rw [hslide.1, hslide.2.1, hslide.2.2.1, hslide.2.2.2]
    have hrb : remBytes (initState (Signature.to_indexed bs []) T).w = T := by
      rw [remBytes]
      show (T.take bs).drop 0 ++ (T.drop bs).take bs ++ (T.drop bs).drop bs = T
      rw [List.drop_zero, List.append_assoc, List.take_append_drop, List.take_append_drop]
    rw [hrb, hlast,
      show (initState (Signature.to_indexed bs []) T).ins_buffer = [] from rfl,
      show (initState (Signature.to_indexed bs []) T).ops = [] from rfl,
      show (initState (Signature.to_indexed bs []) T).w.bytes_read = 0 from rfl]
    simp only [List.nil_append]
    rw [if_neg (by rw [hTE]; exact Bool.false_ne_true)]
    rw [show ((Signature.to_indexed bs []).original_buffer_len
        + (Signature.to_indexed bs []).block_size - 1)
        / (Signature.to_indexed bs []).block_size = 0 from by
      show (List.length ([] : List Nat) + bs - 1) / bs = 0
      simp only [List.length_nil]
      exact Nat.div_eq_of_lt (by omega)]
    rw [if_neg (show ¬((-1 : Int) + 1 < ((0 : Nat) : Int)) from by omega)]
    rw [List.append_nil]
    rw [show 0 + T.length - T.length = List.length ([] : List Nat) from by
      simp only [List.length_nil]
      omega]
  · obtain ⟨M, hM1, hlen⟩ : ∃ M, 1 ≤ M ∧ M * bs = A.length := by
      refine ⟨A.length / bs, Nat.pos_of_ne_zero hM0, ?_⟩
      have hc := Nat.mul_comm (A.length / bs) bs
      omega
    have hagree : ∀ i, i < M → chunkAt bs (A ++ T) i = chunkAt bs A i := by
      intro i hi
      apply chunkAt_append_left
      have h2 : (i + 1) * bs ≤ M * bs := Nat.mul_le_mul_right bs (by omega)
      omega
    have hMle : M ≤ A.length := by
      have h1 := Nat.mul_le_mul_left M hbs
      have h2 : M * 1 = M := by ring
      omega
    have hscan : diffLoop (Signature.to_indexed bs A) ((A ++ T).length + 1)
        (initState (Signature.to_indexed bs A) (A ++ T))
        = diffLoop (Signature.to_indexed bs A) (T.length + (A.length + 1 - M))
          (midState bs (A ++ T) M) := by
      rw [show (A ++ T).length + 1 = M + (T.length + (A.length + 1 - M)) from by
        simp only [List.length_append]
        omega]
      exact scan_full bs hbs A (A ++ T) hnd M hM1 (by omega)
        (by simp only [List.length_append]; omega) hagree _
    have hfr : (chunkAt bs (A ++ T) (M - 1)).length = bs := by
      apply chunkAt_length_full
      simp only [List.length_append]
      obtain ⟨M2, hM2⟩ : ∃ M2, M = M2 + 1 := ⟨M - 1, by omega⟩
      rw [hM2]
      simp only [Nat.add_sub_cancel]
      rw [hM2] at hlen
      omega
    have hdropA : (A ++ T).drop (M * bs) = T := by
      rw [hlen, List.drop_left]
    have hback : chunkAt bs (A ++ T) M = T.take bs := by
      rw [chunkAt, hdropA]
    have hrest : (A ++ T).drop ((M + 1) * bs) = T.drop bs := by
      rw [show (M + 1) * bs = A.length + bs from by
        have h1 : (M + 1) * bs = M * bs + bs := by ring
        omega]
      rw [← List.drop_drop, List.drop_left]
    have hwf : WinWF (midState bs (A ++ T) M).w :=
      WinWF_mid (A ++ T) bs hbs M hM1 (by simp only [List.length_append]; omega)
    have hmeas : winMeasure (midState bs (A ++ T) M).w = T.length := by
      rw [winMeasure, Window.frame_size]
      show (chunkAt bs (A ++ T) (M - 1)).length + (chunkAt bs (A ++ T) M).length - bs
        + ((A ++ T).drop ((M + 1) * bs)).length = T.length
      rw [hfr, hback, hrest]
      simp only [List.length_take, List.length_drop]
      omega
    have hidx : ∀ (key i : Nat) (blk : BlockHash),
        sigLookup (Signature.to_indexed bs A) key = some (i, blk)
          → (i : Int) ≤ (M : Int) - 1 := by
      intro key i blk h
      have h2 := sigLookup_idx_lt bs hbs A key i blk h
      have h3 : i < M := by
        by_contra hge
        have h4 : M * bs ≤ i * bs := Nat.mul_le_mul_right bs (by omega)
        omega
      omega
    have hlastm : (midState bs (A ++ T) M).last = (M : Int) - 1 := rfl
    have hslide := slide_all (Signature.to_indexed bs A) ((M : Int) - 1) hidx T.length
      (midState bs (A ++ T) M) hwf hlastm hmeas (A.length + 1 - M)
    have hrb : remBytes (midState bs (A ++ T) M).w = T := by
      rw [remBytes]
      show (chunkAt bs (A ++ T) (M - 1)).drop bs ++ chunkAt bs (A ++ T) M
        ++ (A ++ T).drop ((M + 1) * bs) = T
      rw [hback, hrest, show (chunkAt bs (A ++ T) (M - 1)).drop bs = []
        from List.drop_eq_nil_iff.mpr (by omega)]
      rw [List.nil_append, List.take_append_drop]
    rw [diffCore_post (Signature.to_indexed bs A) (A ++ T) _ hscan]
    rw [hslide.1, hslide.2.1, hslide.2.2.1, hslide.2.2.2]
    rw [hrb, hlastm,
      show (midState bs (A ++ T) M).ins_buffer = [] from rfl,
      show (midState bs (A ++ T) M).ops = [] from rfl,
      show (midState bs (A ++ T) M).w.bytes_read = M * bs from rfl]
    simp only [List.nil_append]
    rw [if_neg (by rw [hTE]; exact Bool.false_ne_true)]
    rw [show ((Signature.to_indexed bs A).original_buffer_len
        + (Signature.to_indexed bs A).block_size - 1)
        / (Signature.to_indexed bs A).block_size = M from by
      show (A.length + bs - 1) / bs = M
      exact Nat.div_eq_of_lt_le (by omega) (by
        have h1 : (M + 1) * bs = M * bs + bs := by ring
        omega)]
    rw [if_neg (show ¬((M : Int) - 1 + 1 < ((M : Nat) : Int)) from by omega)]
    rw [List.append_nil]
    rw [show M * bs + T.length - T.length = A.length from by omega]

theorem claim_C5_witness :
    1 ≤ 1 ∧ ([3] : List Nat) ≠ [] ∧ List.length [1, 2] % 1 = 0 ∧
    ((chunksOf 1 [1, 2]).map weak_hash).Nodup ∧
    rsdiff_diff_with_block_size 1 [1, 2] ([1, 2] ++ [3])
      = some [Operation.Insert [3] (List.length [1, 2])] :=
  ⟨by decide, by decide, by decide, by decide,
    claim_C5 1 (by decide) [1, 2] [3] (by decide) (by decide) (by decide)⟩

set_option maxRecDepth 20000 in
theorem claim_C5_counterexample :
    List.length [1, 2, 3, 4, 1, 2, 3, 4] % 4 = 0 ∧
    rsdiff_diff_with_block_size 4 [1, 2, 3, 4, 1, 2, 3, 4]
        ([1, 2, 3, 4, 1, 2, 3, 4] ++ [9])
      = some [Operation.Remove 0 4, Operation.Insert [1, 2, 3, 4, 9] 4] := by
  constructor
  · decide
  · decide

/-- C6 (amended): when `B` is the block-aligned prefix `A.take (k*bs)` of `A`
(with `k*bs ≤ |A|`) and the blocks of `A` are weak-hash-distinct, the script
is empty if the prefix is all of `A` and otherwise exactly
`[Remove (k*bs) (|A| - k*bs)]`; `claim_C6_counterexample` shows duplicate
blocks break the unconditional claim. -/
theorem claim_C6 (bs k : Nat) (hbs : 1 ≤ bs) (A : List Nat) (hk : k * bs ≤ A.length)
    (hnd : ((chunksOf bs A).map weak_hash).Nodup) :
    rsdiff_diff_with_block_size bs A (A.take (k * bs))
      = some (if k * bs = A.length then []
              else [Operation.Remove (k * bs) (A.length - k * bs)]) := by
  rw [rsdiff_diff_with_block_size, if_neg (by omega)]
  by_cases hk0 : k = 0
  · subst hk0
    rw [show A.take (0 * bs) = [] from by rw [Nat.zero_mul, List.take_zero]]
    have hnf : ¬ (initState (Signature.to_indexed bs A) []).w.has_frame := by
      rw [initState_eq, Window.has_frame, Window.frame_size]
      simp
    have hloop := diffLoop_exhausted (Signature.to_indexed bs A)
      (List.length ([] : List Nat) + 1) _ hnf
    rw [diffCore_post (Signature.to_indexed bs A) [] _ hloop]
    rw [show (initState (Signature.to_indexed bs A) []).ins_buffer = [] from rfl,
      show (initState (Signature.to_indexed bs A) []).ops = [] from rfl,
      show (initState (Signature.to_indexed bs A) []).w.bytes_read = 0 from rfl,
      show (initState (Signature.to_indexed bs A) []).last = -1 from rfl]
    rw [if_pos (show List.isEmpty ([] : List Nat) = true from rfl)]
    by_cases hA0 : A.length = 0
    · rw [if_pos (show (0 : Nat) * bs = A.length from by omega)]
      rw [show ((Signature.to_indexed bs A).original_buffer_len
          + (Signature.to_indexed bs A).block_size - 1)
          / (Signature.to_indexed bs A).block_size = 0 from by
        show (A.length + bs - 1) / bs = 0
        rw [hA0]
        exact Nat.div_eq_of_lt (by omega)]
      rw [if_neg (show ¬((-1 : Int) + 1 < ((0 : Nat) : Int)) from by omega)]
      rfl
    · rw [if_neg (show ¬((0 : Nat) * bs = A.length) from by omega)]
      rw [Nat.zero_mul, Nat.sub_zero]
      have hceil : 0 < (A.length + bs - 1) / bs :=
        (lt_ceil_iff bs A.length 0 hbs).mpr (by omega)
      rw [if_pos (show (-1 : Int) + 1
          < ((((Signature.to_indexed bs A).original_buffer_len
            + (Signature.to_indexed bs A).block_size - 1)
            / (Signature.to_indexed bs A).block_size : Nat) : Int) from by
        have h3 : ((Signature.to_indexed bs A).original_buffer_len
            + (Signature.to_indexed bs A).block_size - 1)
            / (Signature.to_indexed bs A).block_size = (A.length + bs - 1) / bs := rfl
        rw [h3]
        omega)]
      simp only [List.nil_append]
      rw [show (((Signature.to_indexed bs A).original_buffer_len : Int)
          - ((-1 : Int) + 1) * ((Signature.to_indexed bs A).block_size : Int)).toNat
          = A.length from by
        show (((A.length : Nat) : Int) - ((-1 : Int) + 1) * ((bs : Nat) : Int)).toNat
          = A.length
        have hc : ((-1 : Int) + 1) * ((bs : Nat) : Int) = ((0 : Nat) : Int) := by
          push_cast
          ring
        rw [hc]
        omega]
  · have hk1 : 1 ≤ k := Nat.pos_of_ne_zero hk0
    have hBlen : (A.take (k * bs)).length = k * bs := by
      rw [List.length_take]
      omega
    have hagree : ∀ i, i < k → chunkAt bs (A.take (k * bs)) i = chunkAt bs A i := by
      intro i hi
      apply chunkAt_take
      exact Nat.mul_le_mul_right bs (by omega)
    have hkle : k ≤ k * bs := by
      have h1 := Nat.mul_le_mul_left k hbs
      have h2 : k * 1 = k := by ring
      omega
    have hscan : diffLoop (Signature.to_indexed bs A) ((A.take (k * bs)).length + 1)
        (initState (Signature.to_indexed bs A) (A.take (k * bs)))
        = diffLoop (Signature.to_indexed bs A) (k * bs + 1 - k)
          (midState bs (A.take (k * bs)) k) := by
      rw [show (A.take (k * bs)).length + 1 = k + (k * bs + 1 - k) from by
        rw [hBlen]
        omega]
      exact scan_full bs hbs A (A.take (k * bs)) hnd k hk1 (by omega) (by omega) hagree _
    have hfr : (chunkAt bs (A.take (k * bs)) (k - 1)).length = bs := by
      apply chunkAt_length_full
      obtain ⟨k2, hk2⟩ : ∃ k2, k = k2 + 1 := ⟨k - 1, by omega⟩
      rw [hk2]
      simp only [Nat.add_sub_cancel]
      rw [hk2] at hBlen
      omega
    have hback : chunkAt bs (A.take (k * bs)) k = [] := by
      rw [chunkAt, show (A.take (k * bs)).drop (k * bs) = []
        from List.drop_eq_nil_iff.mpr (by omega), List.take_nil]
    have hnf : ¬ (midState bs (A.take (k * bs)) k).w.has_frame := by
      rw [Window.has_frame, Window.frame_size]
      show ¬ 0 < (chunkAt bs (A.take (k * bs)) (k - 1)).length
          + (chunkAt bs (A.take (k * bs)) k).length - bs
      rw [hfr, hback]
      simp
    have hloop : diffLoop (Signature.to_indexed bs A) ((A.take (k * bs)).length + 1)
        (initState (Signature.to_indexed bs A) (A.take (k * bs)))
        = midState bs (A.take (k * bs)) k := by
      rw [hscan]
      exact diffLoop_exhausted _ _ _ hnf
    rw [diffCore_post (Signature.to_indexed bs A) (A.take (k * bs)) _ hloop]
    rw [show (midState bs (A.take (k * bs)) k).ins_buffer = [] from rfl,
      show (midState bs (A.take (k * bs)) k).ops = [] from rfl,
      show (midState bs (A.take (k * bs)) k).w.bytes_read = k * bs from rfl,
      show (midState bs (A.take (k * bs)) k).last = (k : Int) - 1 from rfl]
    rw [if_pos (show List.isEmpty ([] : List Nat) = true from rfl)]
    by_cases hkA : k * bs = A.length
    · rw [if_pos hkA]
      rw [show ((Signature.to_indexed bs A).original_buffer_len
          + (Signature.to_indexed bs A).block_size - 1)
          / (Signature.to_indexed bs A).block_size = k from by
        show (A.length + bs - 1) / bs = k
        exact Nat.div_eq_of_lt_le (by omega) (by
          have h1 : (k + 1) * bs = k * bs + bs := by ring
          omega)]
      rw [if_neg (show ¬((k : Int) - 1 + 1 < ((k : Nat) : Int)) from by omega)]
      rfl
    · rw [if_neg hkA]
      have hceil : k < (A.length + bs - 1) / bs :=
        (lt_ceil_iff bs A.length k hbs).mpr (by omega)
      rw [if_pos (show (k : Int) - 1 + 1
          < ((((Signature.to_indexed bs A).original_buffer_len
            + (Signature.to_indexed bs A).block_size - 1)
            / (Signature.to_indexed bs A).block_size : Nat) : Int) from by
        have h3 : ((Signature.to_indexed bs A).original_buffer_len
            + (Signature.to_indexed bs A).block_size - 1)
            / (Signature.to_indexed bs A).block_size = (A.length + bs - 1) / bs := rfl
        rw [h3]
        omega)]
      simp only [List.nil_append]
      rw [show (((Signature.to_indexed bs A).original_buffer_len : Int)
          - ((k : Int) - 1 + 1) * ((Signature.to_indexed bs A).block_size : Int)).toNat
          = A.length - k * bs from by
        show (((A.length : Nat) : Int) - ((k : Int) - 1 + 1) * ((bs : Nat) : Int)).toNat
          = A.length - k * bs
        have hc : ((k : Int) - 1 + 1) * ((bs : Nat) : Int) = ((k * bs : Nat) : Int) := by
          push_cast
          ring
        rw [hc]
        omega]

theorem claim_C6_witness :
    1 ≤ 1 ∧ 1 * 1 ≤ List.length [1, 2] ∧ ((chunksOf 1 [1, 2]).map weak_hash).Nodup ∧
    rsdiff_diff_with_block_size 1 [1, 2] (([1, 2] : List Nat).take (1 * 1))
      = some (if 1 * 1 = List.length [1, 2] then []
              else [Operation.Remove (1 * 1) (List.length [1, 2] - 1 * 1)]) :=
  ⟨by decide, by decide, by decide, claim_C6 1 1 (by decide) [1, 2] (by decide) (by decide)⟩

set_option maxRecDepth 20000 in
theorem claim_C6_counterexample :
    2 * 4 ≤ List.length [1, 2, 3, 4, 1, 2, 3, 4, 5, 6, 7, 8] ∧
    rsdiff_diff_with_block_size 4 [1, 2, 3, 4, 1, 2, 3, 4, 5, 6, 7, 8]
        (([1, 2, 3, 4, 1, 2, 3, 4, 5, 6, 7, 8] : List Nat).take (2 * 4))
      = some [Operation.Remove 0 4, Operation.Insert [1, 2, 3, 4] 4,
          Operation.Remove 8 4] := by
  constructor
  · decide
  · decide
